import Mathlib

/-!
Verification of the `fake_market_orderbook` matching engine and market-data
generator against its natural-language specification.

The development shallowly embeds the Python sources:

* `src/core/models.py`     — `Side`, `OrderType`, `Order`, `Trade`, L3 messages
* `src/core/orderbook.py`  — `Orderbook` with `add_limit`, `_match_against_book`,
                             `matchtrade`, `add_order`, `cancel_at_price`,
                             `cancel_by_id`, `best_bid`, `best_ask`, `_clean_top`
* `src/simulation/order_flow.py` — `emit_order` and the L3 cancel-emission core
                             shared by `try_cancel_owned` and `purge_stale_orders`
* `src/simulation/market_stream.py` — `stream_fake_market`

Embedding conventions:

* Python `dict` is an association list (`List (κ × α)`) with Python's update
  semantics: updating an existing key keeps its position, a new key is
  appended.  Keys are unique by construction.
* Python `heapq` heaps are observed by the source only through `heap[0]`
  (the minimum) and `heappop` (which removes `heap[0]`); we model the heap
  as a list kept sorted ascending, so `heap[0]` is the head.  `heappush`
  is sorted insertion; both views expose the same minimum after any
  sequence of pushes and top-pops, which is the only access the source
  performs.
* Python integers are `Int` (arbitrary precision, no overflow); ids and the
  message clock are `Nat` (the source validates them non-negative).
* The float fields `price`/`tick_size` are derived display data
  (`price = price_tick * tick_size`); claims are about `price_tick`, so the
  derived float field of L3 messages is not modelled.
* `DEBUG = False` in `src/core/config.py`, so `_assert_invariants` is a
  no-op and is not modelled.
* Fallible operations (Python `raise ValueError`) return `Option`.
-/

namespace FM

/-! ### Association lists: the embedding of Python `dict` -/

/-- `d.get(k)` on a Python dict modelled as an association list. -/
def dictGet {κ α : Type} [DecidableEq κ] : List (κ × α) → κ → Option α
  | [], _ => none
  | (k', v) :: rest, k => if k' = k then some v else dictGet rest k

/-- `d.get(k, v₀)`. -/
def dictGetD {κ α : Type} [DecidableEq κ] (d : List (κ × α)) (k : κ) (v₀ : α) : α :=
  (dictGet d k).getD v₀

/-- `k in d`. -/
def dictContains {κ α : Type} [DecidableEq κ] (d : List (κ × α)) (k : κ) : Bool :=
  (dictGet d k).isSome

/-- `d[k] = v`: replace in place when the key exists, append otherwise
(Python dicts preserve insertion order). -/
def dictSet {κ α : Type} [DecidableEq κ] : List (κ × α) → κ → α → List (κ × α)
  | [], k, v => [(k, v)]
  | (k', v') :: rest, k, v =>
    if k' = k then (k, v) :: rest else (k', v') :: dictSet rest k v

/-- `del d[k]` / `d.pop(k, None)`: remove the key (keys are unique by
construction, so removing every occurrence coincides with Python). -/
def dictDel {κ α : Type} [DecidableEq κ] : List (κ × α) → κ → List (κ × α)
  | [], _ => []
  | (k', v') :: rest, k =>
    if k' = k then dictDel rest k else (k', v') :: dictDel rest k

/-- `list(d.keys())`. -/
def keysOf {κ α : Type} (d : List (κ × α)) : List κ := d.map Prod.fst

/-! ### The heap model (`heapq` observed through its top) -/

/-- `heapq.heappush`: modelled as insertion into the ascending-sorted list. -/
def heappush : List Int → Int → List Int
  | [], x => [x]
  | y :: ys, x => if x ≤ y then x :: y :: ys else y :: heappush ys x

/-! ### Data model (`src/core/models.py`) -/

/-- `Side` enum. -/
inductive Side : Type
  | BID
  | ASK
deriving DecidableEq

/-- `OrderType` enum. -/
inductive OrderType : Type
  | LIMIT
  | MARKET
deriving DecidableEq

/-- `Order` dataclass.  `quantity` is a Python int; `price_tick` is `None`
for MARKET orders. -/
structure Order : Type where
  id : Nat
  side : Side
  type : OrderType
  quantity : Int
  price_tick : Option Int
  timestamp : Nat
deriving DecidableEq

/-- The `Order.__post_init__` validation (the fields typed `Nat` here are
validated non-negative by the source). -/
def Order.valid (o : Order) : Prop :=
  0 < o.quantity ∧
  (o.type = OrderType.LIMIT → 0 < o.price_tick.getD 0) ∧
  (o.type = OrderType.MARKET → o.price_tick = none)

instance (o : Order) : Decidable o.valid := by
  unfold Order.valid
  infer_instance

/-- `Trade` dataclass. -/
structure Trade : Type where
  maker_id : Nat
  price_tick : Int
  quantity : Int
deriving DecidableEq

/-- The L3 message sum type (`L3Add`, `L3Execute`, `L3Cancel`).  The float
`price` field (`tick_to_price(price_tick)`) is display data derived from
`price_tick` and is not modelled; `timestamp` is the integer sequence
counter (`float(t)` in the source). -/
inductive L3Msg : Type
  | add (timestamp : Nat) (order_id : Nat) (side : Side) (price_tick : Int)
      (quantity : Int)
  | execute (timestamp : Nat) (maker_id : Nat) (price_tick : Int)
      (quantity : Int) (aggressor_side : Side)
  | cancel (timestamp : Nat) (order_id : Nat) (side : Side) (price_tick : Int)
      (cancelled_quantity : Int)
deriving DecidableEq

/-! ### The orderbook (`src/core/orderbook.py`) -/

/-- The `Orderbook` dataclass.  `bid_heap` stores `-price_tick`, `ask_heap`
stores `+price_tick` (both min-heaps).  `tick_size`/`debug` are omitted:
the former only feeds the unmodelled float conversions, the latter is
`False` so `_assert_invariants` never runs. -/
structure Orderbook : Type where
  bids : List (Int × List Order)
  asks : List (Int × List Order)
  bid_sizes : List (Int × Int)
  ask_sizes : List (Int × Int)
  bid_heap : List Int
  ask_heap : List Int
  order_index : List (Nat × Side × Int)
deriving DecidableEq

/-- A freshly constructed `Orderbook()`. -/
def Orderbook.empty : Orderbook :=
  { bids := [], asks := [], bid_sizes := [], ask_sizes := [],
    bid_heap := [], ask_heap := [], order_index := [] }

/-- The heap sign used by `_clean_top` / `_match_against_book`: the
opposite-side heap of a BID aggressor is the ask heap (entries are
`+tick`), of an ASK aggressor the bid heap (entries are `-tick`). -/
def matchSign : Side → Int
  | Side.BID => 1
  | Side.ASK => -1

/-- `Orderbook._clean_top`, acting on one heap: pop entries whose price
level is absent or empty (`if not q`). -/
def cleanHeap (levels : List (Int × List Order)) (sign : Int) :
    List Int → List Int
  | [] => []
  | x :: rest =>
    match dictGet levels (sign * x) with
    | none => cleanHeap levels sign rest
    | some q => if q = [] then cleanHeap levels sign rest else x :: rest

/-- `Orderbook.add_limit`.  Returns `none` where the source raises
(`add_limit expects a LIMIT order` / `LIMIT order needs price_tick`). -/
def add_limit (b : Orderbook) (o : Order) : Option Orderbook :=
  if o.type ≠ OrderType.LIMIT then none
  else
    match o.price_tick with
    | none => none
    | some p =>
      match o.side with
      | Side.BID =>
        let fresh := ¬ (dictContains b.bids p : Bool) = true
        let bids₀ := if fresh then dictSet b.bids p [] else b.bids
        let sizes₀ := if fresh then dictSet b.bid_sizes p 0 else b.bid_sizes
        let heap₀ := if fresh then heappush b.bid_heap (-p) else b.bid_heap
        some { b with
          bids := dictSet bids₀ p (dictGetD bids₀ p [] ++ [o]),
          bid_sizes := dictSet sizes₀ p (dictGetD sizes₀ p 0 + o.quantity),
          bid_heap := heap₀,
          order_index := dictSet b.order_index o.id (o.side, p) }
      | Side.ASK =>
        let fresh := ¬ (dictContains b.asks p : Bool) = true
        let asks₀ := if fresh then dictSet b.asks p [] else b.asks
        let sizes₀ := if fresh then dictSet b.ask_sizes p 0 else b.ask_sizes
        let heap₀ := if fresh then heappush b.ask_heap p else b.ask_heap
        some { b with
          asks := dictSet asks₀ p (dictGetD asks₀ p [] ++ [o]),
          ask_sizes := dictSet sizes₀ p (dictGetD sizes₀ p 0 + o.quantity),
          ask_heap := heap₀,
          order_index := dictSet b.order_index o.id (o.side, p) }

/-- Sum of trade quantities. -/
def sumTrades (trs : List Trade) : Int := (trs.map Trade.quantity).sum

/-- Sum of order quantities in one FIFO. -/
def queueQty (q : List Order) : Int := (q.map Order.quantity).sum

/-- Total resting quantity over all levels of one side. -/
def totalQty (levels : List (Int × List Order)) : Int :=
  (levels.map (fun kv => queueQty kv.2)).sum

/-- The inner `while queue and remaining_qty > 0` loop of
`_match_against_book` at level `bestTick`: consume orders from the FIFO
head.  Returns `(trades, remaining, queue, ids of fully filled orders)`.
When the head is only partially consumed (`top_order.quantity` stays
positive), `trade_qty = min(remaining, quantity) = remaining`, so the next
source-loop test `remaining_qty > 0` fails and the loop exits; the
non-recursive branch below returns exactly that state. -/
def fillQueue (bestTick : Int) : Int → List Order →
    List Trade × Int × List Order × List Nat
  | rem, [] => ([], rem, [], [])
  | rem, o :: rest =>
    if rem ≤ 0 then ([], rem, o :: rest, [])
    else
      let tq := min rem o.quantity
      let tr : Trade := ⟨o.id, bestTick, tq⟩
      if o.quantity - tq = 0 then
        match fillQueue bestTick (rem - tq) rest with
        | (trs, rem', q', rids) => (tr :: trs, rem', q', o.id :: rids)
      else
        ([tr], rem - tq, { o with quantity := o.quantity - tq } :: rest, [])

/-- The one-sided view of the book handled by `_match_against_book`
(locals `levels`, `sizes`, `heap` plus the shared `order_index`). -/
structure BookView : Type where
  levels : List (Int × List Order)
  sizes : List (Int × Int)
  heap : List Int
  oindex : List (Nat × Side × Int)
deriving DecidableEq

/-- The LIMIT stop test inside the matching loop. -/
def limitBreak (incoming : Side) (limit : Option Int) (best : Int) : Bool :=
  match limit with
  | none => false
  | some l =>
    match incoming with
    | Side.BID => decide (l < best)
    | Side.ASK => decide (best < l)

/-- The state written back after one level is processed by the matching
loop: the FIFO is stored back (or, when it emptied, the level and its size
counter are deleted — `del levels[best_tick]; sizes.pop(best_tick, None)`),
`sizes[best_tick]` has been decremented per trade (net: by the level's
traded quantity), fully filled makers were popped from the order index,
and the heap holds the cleaned value (`_clean_top` popped in place). -/
def stepView (v : BookView) (best hd : Int) (tl : List Int)
    (trs : List Trade) (q' : List Order) (rids : List Nat) : BookView :=
  let oindex' := rids.foldl dictDel v.oindex
  let sizes' := dictSet v.sizes best (dictGetD v.sizes best 0 - sumTrades trs)
  if q' = [] then
    ⟨dictDel v.levels best, dictDel sizes' best, hd :: tl, oindex'⟩
  else
    ⟨dictSet v.levels best q', sizes', hd :: tl, oindex'⟩

/-- The outer `while remaining_qty > 0` loop of `_match_against_book`.
`fuel` bounds the iteration count; the wrapper passes `heap.length + 1`,
which is shown sufficient (each recursing iteration deletes the level of
the cleaned heap's head, so the next cleaning pops it). -/
def matchLoop (incoming : Side) (limit : Option Int) :
    Nat → Int → BookView → List Trade × Int × BookView
  | 0, rem, v => ([], rem, v)
  | fuel + 1, rem, v =>
    if rem ≤ 0 then ([], rem, v)
    else
      match cleanHeap v.levels (matchSign incoming) v.heap with
      | [] => ([], rem, ⟨v.levels, v.sizes, [], v.oindex⟩)
      | hd :: tl =>
        let best := matchSign incoming * hd
        if limitBreak incoming limit best then
          ([], rem, ⟨v.levels, v.sizes, hd :: tl, v.oindex⟩)
        else
          match fillQueue best rem (dictGetD v.levels best []) with
          | (trs, rem', q', rids) =>
            match matchLoop incoming limit fuel rem'
                (stepView v best hd tl trs q' rids) with
            | (trs₂, rem₂, v₂) => (trs ++ trs₂, rem₂, v₂)

/-- `Orderbook._match_against_book`: select the opposite side, run the
matching loop, write the view back. -/
def match_against_book (b : Orderbook) (incoming : Side) (qty : Int)
    (limit : Option Int) : List Trade × Int × Orderbook :=
  match incoming with
  | Side.BID =>
    match matchLoop Side.BID limit (b.ask_heap.length + 1) qty
        ⟨b.asks, b.ask_sizes, b.ask_heap, b.order_index⟩ with
    | (trs, rem, v) =>
      (trs, rem, { b with asks := v.levels, ask_sizes := v.sizes,
                          ask_heap := v.heap, order_index := v.oindex })
  | Side.ASK =>
    match matchLoop Side.ASK limit (b.bid_heap.length + 1) qty
        ⟨b.bids, b.bid_sizes, b.bid_heap, b.order_index⟩ with
    | (trs, rem, v) =>
      (trs, rem, { b with bids := v.levels, bid_sizes := v.sizes,
                          bid_heap := v.heap, order_index := v.oindex })

/-- `Orderbook.matchtrade`: market-order matching.  `none` where the source
raises (`matchtrade expects a MARKET order`). -/
def matchtrade (b : Orderbook) (o : Order) : Option (List Trade × Orderbook) :=
  if o.type ≠ OrderType.MARKET then none
  else
    match match_against_book b o.side o.quantity none with
    | (trs, _, b') => some (trs, b')

/-- `Orderbook.add_order`.  The source mutates the incoming order's
`quantity` to the residual before resting it; the updated order is
returned alongside the trades and book. -/
def add_order (b : Orderbook) (o : Order) :
    Option (List Trade × Order × Orderbook) :=
  if o.type = OrderType.LIMIT then
    match match_against_book b o.side o.quantity o.price_tick with
    | (trs, rem, b₁) =>
      if 0 < rem then
        let o' := { o with quantity := rem }
        match add_limit b₁ o' with
        | none => none
        | some b₂ => some (trs, o', b₂)
      else
        some (trs, o, b₁)
  else
    match matchtrade b o with
    | none => none
    | some (trs, b') => some (trs, o, b')

/-- `Orderbook.cancel_at_price`: remove the FIFO head at a level. -/
def cancel_at_price (b : Orderbook) (side : Side) (p : Int) :
    Option Order × Orderbook :=
  match side with
  | Side.BID =>
    match dictGet b.bids p with
    | none => (none, b)
    | some [] => (none, b)
    | some (o :: rest) =>
      let sizes₁ :=
        dictSet b.bid_sizes p (max 0 (dictGetD b.bid_sizes p 0 - o.quantity))
      let oindex₁ := dictDel b.order_index o.id
      if rest = [] then
        (some o, { b with bids := dictDel b.bids p,
                          bid_sizes := dictDel sizes₁ p,
                          order_index := oindex₁ })
      else
        (some o, { b with bids := dictSet b.bids p rest,
                          bid_sizes := sizes₁,
                          order_index := oindex₁ })
  | Side.ASK =>
    match dictGet b.asks p with
    | none => (none, b)
    | some [] => (none, b)
    | some (o :: rest) =>
      let sizes₁ :=
        dictSet b.ask_sizes p (max 0 (dictGetD b.ask_sizes p 0 - o.quantity))
      let oindex₁ := dictDel b.order_index o.id
      if rest = [] then
        (some o, { b with asks := dictDel b.asks p,
                          ask_sizes := dictDel sizes₁ p,
                          order_index := oindex₁ })
      else
        (some o, { b with asks := dictSet b.asks p rest,
                          ask_sizes := sizes₁,
                          order_index := oindex₁ })

/-- The single-pass FIFO rebuild of `cancel_by_id`: drop the first order
with the target id.  Returns `(new_queue, removed, removed_qty)`. -/
def removeFirstById (oid : Nat) : List Order → List Order × Bool × Int
  | [] => ([], false, 0)
  | o :: rest =>
    if o.id = oid then (rest, true, o.quantity)
    else
      match removeFirstById oid rest with
      | (nq, r, q) => (o :: nq, r, q)

/-- `Orderbook.cancel_by_id`.  Note the source order of operations: when
the rebuilt queue is empty it pops both the level and its size entry, and
then — because `removed_qty` is non-zero — re-inserts
`sizes[price_tick] = max(0, 0 - removed_qty) = 0`. -/
def cancel_by_id (b : Orderbook) (oid : Nat) : Bool × Orderbook :=
  match dictGet b.order_index oid with
  | none => (false, b)
  | some (side, p) =>
    match side with
    | Side.BID =>
      match dictGet b.bids p with
      | none => (false, { b with order_index := dictDel b.order_index oid })
      | some [] => (false, { b with order_index := dictDel b.order_index oid })
      | some queue =>
        match removeFirstById oid queue with
        | (nq, removed, removed_qty) =>
          let levels₁ := if nq ≠ [] then dictSet b.bids p nq else dictDel b.bids p
          let sizes₁ := if nq ≠ [] then b.bid_sizes else dictDel b.bid_sizes p
          let sizes₂ :=
            if removed_qty ≠ 0 then
              dictSet sizes₁ p (max 0 (dictGetD sizes₁ p 0 - removed_qty))
            else sizes₁
          let oindex₁ :=
            if removed then dictDel b.order_index oid else b.order_index
          (removed, { b with bids := levels₁, bid_sizes := sizes₂,
                             order_index := oindex₁ })
    | Side.ASK =>
      match dictGet b.asks p with
      | none => (false, { b with order_index := dictDel b.order_index oid })
      | some [] => (false, { b with order_index := dictDel b.order_index oid })
      | some queue =>
        match removeFirstById oid queue with
        | (nq, removed, removed_qty) =>
          let levels₁ := if nq ≠ [] then dictSet b.asks p nq else dictDel b.asks p
          let sizes₁ := if nq ≠ [] then b.ask_sizes else dictDel b.ask_sizes p
          let sizes₂ :=
            if removed_qty ≠ 0 then
              dictSet sizes₁ p (max 0 (dictGetD sizes₁ p 0 - removed_qty))
            else sizes₁
          let oindex₁ :=
            if removed then dictDel b.order_index oid else b.order_index
          (removed, { b with asks := levels₁, ask_sizes := sizes₂,
                             order_index := oindex₁ })

/-- `Orderbook.best_bid`: lazily clean the heap top, then report
`(price_tick, bid_sizes.get(price_tick, 0))`.  The cleaning mutates the
book, so the updated book is returned too. -/
def best_bid (b : Orderbook) : Orderbook × Option (Int × Int) :=
  let heap' := cleanHeap b.bids (-1) b.bid_heap
  let b' := { b with bid_heap := heap' }
  match heap' with
  | [] => (b', none)
  | hd :: _ => (b', some (-hd, dictGetD b.bid_sizes (-hd) 0))

/-- `Orderbook.best_ask`. -/
def best_ask (b : Orderbook) : Orderbook × Option (Int × Int) :=
  let heap' := cleanHeap b.asks 1 b.ask_heap
  let b' := { b with ask_heap := heap' }
  match heap' with
  | [] => (b', none)
  | hd :: _ => (b', some (hd, dictGetD b.ask_sizes hd 0))

/-- Level map of one side. -/
def sideLevels (b : Orderbook) : Side → List (Int × List Order)
  | Side.BID => b.bids
  | Side.ASK => b.asks

/-- Size map of one side. -/
def sideSizes (b : Orderbook) : Side → List (Int × Int)
  | Side.BID => b.bid_sizes
  | Side.ASK => b.ask_sizes

/-- Heap of one side. -/
def sideHeap (b : Orderbook) : Side → List Int
  | Side.BID => b.bid_heap
  | Side.ASK => b.ask_heap

/-- The opposite side. -/
def Side.opp : Side → Side
  | Side.BID => Side.ASK
  | Side.ASK => Side.BID

/-! ### L3 emission (`src/simulation/order_flow.py`) -/

/-- `emit_order`: submit the order, yield one `Execute` per trade and then
an `Add` when `order.type == LIMIT and order.quantity > 0`.  Every yield
increments `t` first; the generator is materialised as the message list
plus the final counter.  `original_price_tick` is captured before
submission (`origTick.getD 0` is never hit on the `Add` path: the order is
LIMIT there, and a LIMIT reaching `L3Add` construction has a price tick —
a `None` would raise inside `L3Add.__post_init__`). -/
def emit_order (b : Orderbook) (o : Order) (t : Nat) :
    Option (List L3Msg × Nat × Orderbook) :=
  let origTick := o.price_tick
  match add_order b o with
  | none => none
  | some (trs, o', b') =>
    let execs := trs.mapIdx
      (fun i tr => L3Msg.execute (t + i + 1) tr.maker_id tr.price_tick
        tr.quantity o.side)
    let t₁ := t + trs.length
    if o'.type = OrderType.LIMIT ∧ 0 < o'.quantity then
      some (execs ++ [L3Msg.add (t₁ + 1) o'.id o'.side (origTick.getD 0)
        o'.quantity], t₁ + 1, b')
    else
      some (execs, t₁, b')

/-- The pre-cancel quantity lookup shared by `try_cancel_owned`
(`order_flow.py`) and `purge_stale_orders` (`book_ops.py`):
`qty = 0; for o in queue: if o.id == order_id: qty = o.quantity; break`. -/
def scanQuantity (oid : Nat) : List Order → Int
  | [] => 0
  | o :: rest => if o.id = oid then o.quantity else scanQuantity oid rest

/-- The L3 cancel-emission core, textually shared by `try_cancel_owned`
(lines 81–108 of `order_flow.py`) and the per-order body of
`purge_stale_orders` (lines 123–146 of `book_ops.py`): look the id up in
the global index, read the victim's quantity from the level FIFO *before*
cancelling, run `cancel_by_id`, and on success emit the `L3Cancel`.  The
agent bookkeeping around this core does not touch the message fields. -/
def cancel_emit_core (b : Orderbook) (oid : Nat) (t : Nat) :
    Option L3Msg × Nat × Orderbook :=
  match dictGet b.order_index oid with
  | none => (none, t, b)
  | some (side, p) =>
    let queue := dictGetD (sideLevels b side) p []
    let qty := scanQuantity oid queue
    match cancel_by_id b oid with
    | (removed, b') =>
      if removed then (some (L3Msg.cancel (t + 1) oid side p qty), t + 1, b')
      else (none, t, b')

/-- LIMIT order literal (test fixture shape, timestamp 0). -/
def mkLimit (id : Nat) (s : Side) (q : Int) (p : Int) : Order :=
  ⟨id, s, OrderType.LIMIT, q, some p, 0⟩

/-- MARKET order literal (test fixture shape, timestamp 0). -/
def mkMarket (id : Nat) (s : Side) (q : Int) : Order :=
  ⟨id, s, OrderType.MARKET, q, none, 0⟩

/-- Unwrap of fallible book operations on concrete inputs. -/
def getBook (r : Option Orderbook) : Orderbook := r.getD Orderbook.empty

example :
    let b₁ := getBook (add_limit Orderbook.empty (mkLimit 1 Side.ASK 5 100))
    (best_ask b₁).2 = some (100, 5) ∧
      (add_order b₁ (mkMarket 2 Side.BID 5)).map
        (fun r => (r.1, (best_ask r.2.2).2)) = some ([⟨1, 100, 5⟩], none) := by
  decide

example :
    let b₁ := getBook (add_limit Orderbook.empty (mkLimit 1 Side.ASK 2 100))
    let b₂ := getBook (add_limit b₁ (mkLimit 2 Side.ASK 2 100))
    (add_order b₂ (mkMarket 3 Side.BID 3)).map
        (fun r => (r.1, (best_ask r.2.2).2)) =
      some ([⟨1, 100, 2⟩, ⟨2, 100, 1⟩], some (100, 1)) := by
  decide

example :
    let b₁ := getBook (add_limit Orderbook.empty (mkLimit 1 Side.ASK 2 100))
    let b₂ := getBook (add_limit b₁ (mkLimit 2 Side.ASK 2 101))
    (add_order b₂ (mkLimit 3 Side.BID 5 102)).map
        (fun r => (r.1, r.2.1.quantity, (best_bid r.2.2).2)) =
      some ([⟨1, 100, 2⟩, ⟨2, 101, 2⟩], 1, some (102, 1)) := by
  decide

example :
    let b₁ := getBook (add_limit Orderbook.empty (mkLimit 1 Side.BID 2 100))
    let b₂ := getBook (add_limit b₁ (mkLimit 2 Side.BID 2 100))
    let b₃ := getBook (add_limit b₂ (mkLimit 3 Side.BID 2 100))
    let r := cancel_by_id b₃ 2
    r.1 = true ∧ (dictGet r.2.bids 100).map (List.map Order.id) = some [1, 3] ∧
      dictGet r.2.bid_sizes 100 = some 4 := by
  decide

example :
    let b₁ := getBook (add_limit Orderbook.empty (mkLimit 1 Side.ASK 3 105))
    let b₂ := getBook (add_limit b₁ (mkLimit 2 Side.ASK 3 105))
    let r := cancel_at_price b₂ Side.ASK 105
    (r.1.map Order.id) = some 1 ∧ (best_ask r.2).2 = some (105, 3) := by
  decide

example :
    let b₁ := getBook (add_limit Orderbook.empty (mkLimit 1 Side.BID 5 100))
    let r := cancel_by_id b₁ 1
    r.1 = true ∧ r.2.bids = [] ∧ r.2.bid_sizes = [(100, 0)] := by
  decide

example :
    let b₁ := getBook (add_limit Orderbook.empty (mkLimit 1 Side.ASK 5 100))
    (emit_order b₁ (mkLimit 2 Side.BID 5 100) 0).map (fun r => (r.1, r.2.1)) =
      some ([L3Msg.execute 1 1 100 5 Side.BID, L3Msg.add 2 2 Side.BID 100 5],
        2) := by
  decide

/-! ### Association-list lemmas -/

theorem dictGet_dictSet_self {κ α : Type} [DecidableEq κ]
    (d : List (κ × α)) (k : κ) (v : α) :
    dictGet (dictSet d k v) k = some v := by
  induction d with
  | nil => simp [dictSet, dictGet]
  | cons kv rest ih =>
    obtain ⟨k', v'⟩ := kv
    by_cases h : k' = k
    · simp [dictSet, h, dictGet]
    · simp [dictSet, h, dictGet, ih]

theorem dictGet_dictSet_ne {κ α : Type} [DecidableEq κ]
    (d : List (κ × α)) (k k' : κ) (v : α) (h : k' ≠ k) :
    dictGet (dictSet d k v) k' = dictGet d k' := by
  induction d with
  | nil => simp [dictSet, dictGet, Ne.symm h]
  | cons kv rest ih =>
    obtain ⟨k₀, v₀⟩ := kv
    by_cases h₀ : k₀ = k
    · subst h₀
      simp [dictSet, dictGet, Ne.symm h]
    · simp only [dictSet, if_neg h₀, dictGet]
      by_cases h₁ : k₀ = k'
      · simp [h₁]
      · simp [h₁, ih]

theorem dictGet_dictDel_self {κ α : Type} [DecidableEq κ]
    (d : List (κ × α)) (k : κ) :
    dictGet (dictDel d k) k = none := by
  induction d with
  | nil => simp [dictDel, dictGet]
  | cons kv rest ih =>
    obtain ⟨k', v'⟩ := kv
    by_cases h : k' = k
    · simp [dictDel, h, ih]
    · simp [dictDel, h, dictGet, ih]

theorem dictGet_dictDel_ne {κ α : Type} [DecidableEq κ]
    (d : List (κ × α)) (k k' : κ) (h : k' ≠ k) :
    dictGet (dictDel d k) k' = dictGet d k' := by
  induction d with
  | nil => simp [dictDel]
  | cons kv rest ih =>
    obtain ⟨k₀, v₀⟩ := kv
    by_cases h₀ : k₀ = k
    · subst h₀
      simp [dictDel, dictGet, Ne.symm h, ih]
    · simp only [dictDel, if_neg h₀, dictGet]
      by_cases h₁ : k₀ = k'
      · simp [h₁]
      · simp [h₁, ih]

theorem mem_keysOf_iff_isSome {κ α : Type} [DecidableEq κ]
    (d : List (κ × α)) (k : κ) :
    k ∈ keysOf d ↔ (dictGet d k).isSome := by
  induction d with
  | nil => simp [keysOf, dictGet]
  | cons kv rest ih =>
    obtain ⟨k', v'⟩ := kv
    by_cases h : k' = k
    · simp [keysOf, dictGet, h]
    · simp only [keysOf, List.map_cons, List.mem_cons, dictGet, if_neg h]
      simp only [keysOf] at ih
      simp [Ne.symm h, ih]

theorem dictGet_mem {κ α : Type} [DecidableEq κ]
    {d : List (κ × α)} {k : κ} {v : α} (h : dictGet d k = some v) :
    (k, v) ∈ d := by
  induction d with
  | nil => simp [dictGet] at h
  | cons kv rest ih =>
    obtain ⟨k', v'⟩ := kv
    by_cases h₀ : k' = k
    · subst h₀
      simp [dictGet] at h
      simp [h]
    · simp [dictGet, h₀] at h
      exact List.mem_cons_of_mem _ (ih h)

theorem dictGet_eq_some_of_mem {κ α : Type} [DecidableEq κ]
    {d : List (κ × α)} {k : κ} {v : α}
    (hnd : (keysOf d).Nodup) (h : (k, v) ∈ d) :
    dictGet d k = some v := by
  induction d with
  | nil => simp at h
  | cons kv rest ih =>
    obtain ⟨k', v'⟩ := kv
    simp only [keysOf, List.map_cons, List.nodup_cons] at hnd
    rcases List.mem_cons.1 h with h₁ | h₁
    · rw [Prod.mk.injEq] at h₁
      obtain ⟨hk, hv⟩ := h₁
      subst hk
      subst hv
      simp [dictGet]
    · by_cases h₀ : k' = k
      · exfalso
        apply hnd.1
        rw [h₀]
        exact List.mem_map_of_mem Prod.fst h₁
      · simpa [dictGet, h₀] using ih hnd.2 h₁

theorem mem_dictSet {κ α : Type} [DecidableEq κ]
    {d : List (κ × α)} {k : κ} {v : α} {kv : κ × α}
    (h : kv ∈ dictSet d k v) : kv ∈ d ∨ kv = (k, v) := by
  induction d with
  | nil =>
    simp [dictSet] at h
    exact Or.inr h
  | cons kv₀ rest ih =>
    obtain ⟨k₀, v₀⟩ := kv₀
    by_cases h₀ : k₀ = k
    · simp only [dictSet, if_pos h₀] at h
      rcases List.mem_cons.1 h with h₁ | h₁
      · exact Or.inr h₁
      · exact Or.inl (List.mem_cons_of_mem _ h₁)
    · simp only [dictSet, if_neg h₀] at h
      rcases List.mem_cons.1 h with h₁ | h₁
      · exact Or.inl (h₁ ▸ List.mem_cons_self _ _)
      · rcases ih h₁ with h₂ | h₂
        · exact Or.inl (List.mem_cons_of_mem _ h₂)
        · exact Or.inr h₂

theorem mem_dictDel {κ α : Type} [DecidableEq κ]
    {d : List (κ × α)} {k : κ} {kv : κ × α}
    (h : kv ∈ dictDel d k) : kv ∈ d := by
  induction d with
  | nil => simp [dictDel] at h
  | cons kv₀ rest ih =>
    obtain ⟨k₀, v₀⟩ := kv₀
    by_cases h₀ : k₀ = k
    · simp only [dictDel, if_pos h₀] at h
      exact List.mem_cons_of_mem _ (ih h)
    · simp only [dictDel, if_neg h₀] at h
      rcases List.mem_cons.1 h with h₁ | h₁
      · exact h₁ ▸ List.mem_cons_self _ _
      · exact List.mem_cons_of_mem _ (ih h₁)

theorem keysOf_dictSet_nodup {κ α : Type} [DecidableEq κ]
    {d : List (κ × α)} (k : κ) (v : α)
    (h : (keysOf d).Nodup) : (keysOf (dictSet d k v)).Nodup := by
  induction d with
  | nil => simp [dictSet, keysOf]
  | cons kv₀ rest ih =>
    obtain ⟨k₀, v₀⟩ := kv₀
    simp only [keysOf, List.map_cons, List.nodup_cons] at h
    by_cases h₀ : k₀ = k
    · subst h₀
      simpa [dictSet, keysOf] using h
    · simp only [dictSet, if_neg h₀, keysOf, List.map_cons, List.nodup_cons]
      refine ⟨fun hmem => ?_, ih h.2⟩
      rcases List.mem_map.1 hmem with ⟨⟨k₁, v₁⟩, hk₁, hk₂⟩
      rcases mem_dictSet hk₁ with h₂ | h₂
      · exact h.1 (hk₂ ▸ List.mem_map_of_mem Prod.fst h₂)
      · apply h₀
        rw [← hk₂]
        exact congrArg Prod.fst h₂

theorem keysOf_dictDel_nodup {κ α : Type} [DecidableEq κ]
    {d : List (κ × α)} (k : κ)
    (h : (keysOf d).Nodup) : (keysOf (dictDel d k)).Nodup := by
  induction d with
  | nil => simp [dictDel, keysOf]
  | cons kv₀ rest ih =>
    obtain ⟨k₀, v₀⟩ := kv₀
    simp only [keysOf, List.map_cons, List.nodup_cons] at h
    by_cases h₀ : k₀ = k
    · simp only [dictDel, if_pos h₀]
      exact ih h.2
    · simp only [dictDel, if_neg h₀, keysOf, List.map_cons, List.nodup_cons]
      refine ⟨fun hmem => ?_, ih h.2⟩
      rcases List.mem_map.1 hmem with ⟨⟨k₁, v₁⟩, hk₁, hk₂⟩
      exact h.1 (hk₂ ▸ List.mem_map_of_mem Prod.fst (mem_dictDel hk₁))

theorem dictGet_foldl_dictDel {κ α : Type} [DecidableEq κ]
    (ids : List κ) (d : List (κ × α)) (k : κ) :
    dictGet (ids.foldl dictDel d) k = dictGet d k ∨
      dictGet (ids.foldl dictDel d) k = none := by
  induction ids generalizing d with
  | nil => exact Or.inl rfl
  | cons i rest ih =>
    simp only [List.foldl_cons]
    rcases ih (dictDel d i) with h | h
    · by_cases h₀ : k = i
      · subst h₀
        rw [h, dictGet_dictDel_self]
        exact Or.inr rfl
      · rw [h, dictGet_dictDel_ne _ _ _ h₀]
        exact Or.inl rfl
    · exact Or.inr h

/-! ### Heap-model lemmas -/

theorem mem_heappush {l : List Int} {y x : Int} :
    x ∈ heappush l y ↔ x = y ∨ x ∈ l := by
  induction l with
  | nil => simp [heappush]
  | cons z zs ih =>
    by_cases hz : y ≤ z
    · simp [heappush, hz]
    · simp only [heappush, if_neg hz, List.mem_cons, ih]
      tauto

theorem heappush_sorted {l : List Int} (hs : l.Pairwise (· ≤ ·)) (y : Int) :
    (heappush l y).Pairwise (· ≤ ·) := by
  induction l with
  | nil => simp [heappush]
  | cons z zs ih =>
    rw [List.pairwise_cons] at hs
    by_cases hz : y ≤ z
    · simp only [heappush, if_pos hz]
      rw [List.pairwise_cons]
      refine ⟨?_, List.Pairwise.cons hs.1 hs.2⟩
      intro w hw
      rcases List.mem_cons.1 hw with h | h
      · exact h ▸ hz
      · exact le_trans hz (hs.1 w h)
    · simp only [heappush, if_neg hz]
      rw [List.pairwise_cons]
      refine ⟨?_, ih hs.2⟩
      intro w hw
      rcases mem_heappush.1 hw with h | h
      · exact h ▸ (le_of_not_le hz)
      · exact hs.1 w h

theorem cleanHeap_suffix (levels : List (Int × List Order)) (sign : Int)
    (l : List Int) : cleanHeap levels sign l <:+ l := by
  induction l with
  | nil => simp [cleanHeap]
  | cons x xs ih =>
    cases hq : dictGet levels (sign * x) with
    | none =>
      simp only [cleanHeap, hq]
      exact ih.trans (List.suffix_cons x xs)
    | some q =>
      by_cases hq' : q = []
      · simp only [cleanHeap, hq, if_pos hq']
        exact ih.trans (List.suffix_cons x xs)
      · simp only [cleanHeap, hq, if_neg hq']
        exact List.suffix_refl _

theorem cleanHeap_head {levels : List (Int × List Order)} {sign : Int}
    {l : List Int} {hd : Int} {tl : List Int}
    (h : cleanHeap levels sign l = hd :: tl) :
    ∃ q, dictGet levels (sign * hd) = some q ∧ q ≠ [] := by
  induction l with
  | nil => simp [cleanHeap] at h
  | cons x xs ih =>
    cases hq : dictGet levels (sign * x) with
    | none =>
      simp only [cleanHeap, hq] at h
      exact ih h
    | some q =>
      by_cases hq' : q = []
      · simp only [cleanHeap, hq, if_pos hq'] at h
        exact ih h
      · simp only [cleanHeap, hq, if_neg hq'] at h
        obtain ⟨rfl, rfl⟩ := List.cons.injEq .. ▸ h
        exact ⟨q, hq, hq'⟩

theorem mem_cleanHeap {levels : List (Int × List Order)} {sign : Int}
    {x : Int} {q : List Order}
    (hq : dictGet levels (sign * x) = some q) (hne : q ≠ []) :
    ∀ {l : List Int}, x ∈ l → x ∈ cleanHeap levels sign l := by
  intro l
  induction l with
  | nil => simp
  | cons y ys ih =>
    intro hx
    cases hy : dictGet levels (sign * y) with
    | none =>
      simp only [cleanHeap, hy]
      rcases List.mem_cons.1 hx with h | h
      · subst h
        rw [hq] at hy
        cases hy
      · exact ih h
    | some qy =>
      by_cases hqy : qy = []
      · simp only [cleanHeap, hy, if_pos hqy]
        rcases List.mem_cons.1 hx with h | h
        · subst h
          rw [hq] at hy
          cases hy
          exact absurd hqy hne
        · exact ih h
      · simp only [cleanHeap, hy, if_neg hqy]
        exact hx

theorem cleanHeap_eq_nil {levels : List (Int × List Order)} (sign : Int)
    (l : List Int) (h : ∀ kv ∈ levels, kv.2 = []) :
    cleanHeap levels sign l = [] := by
  induction l with
  | nil => simp [cleanHeap]
  | cons x xs ih =>
    cases hq : dictGet levels (sign * x) with
    | none => simpa only [cleanHeap, hq] using ih
    | some q =>
      have hq' : q = [] := h _ (dictGet_mem hq)
      simpa only [cleanHeap, hq, if_pos hq'] using ih

theorem cleanHeap_cons_dead {levels : List (Int × List Order)} {sign : Int}
    {x : Int} (l : List Int) (h : dictGet levels (sign * x) = none) :
    cleanHeap levels sign (x :: l) = cleanHeap levels sign l := by
  simp only [cleanHeap, h]

/-! ### Quantity-accounting lemmas -/

theorem queueQty_nonneg {q : List Order}
    (h : ∀ o ∈ q, 0 < o.quantity) : 0 ≤ queueQty q := by
  refine List.sum_nonneg ?_
  intro x hx
  rcases List.mem_map.1 hx with ⟨o, ho, rfl⟩
  exact le_of_lt (h o ho)

theorem totalQty_nonneg {levels : List (Int × List Order)}
    (h : ∀ kv ∈ levels, ∀ o ∈ kv.2, 0 < o.quantity) : 0 ≤ totalQty levels := by
  refine List.sum_nonneg ?_
  intro x hx
  rcases List.mem_map.1 hx with ⟨kv, hkv, rfl⟩
  exact queueQty_nonneg (h kv hkv)

theorem dictDel_of_not_mem {κ α : Type} [DecidableEq κ]
    {d : List (κ × α)} {k : κ} (h : k ∉ keysOf d) : dictDel d k = d := by
  induction d with
  | nil => simp [dictDel]
  | cons kv rest ih =>
    obtain ⟨k₀, v₀⟩ := kv
    simp only [keysOf, List.map_cons, List.mem_cons] at h
    push_neg at h
    simp only [dictDel, if_neg (Ne.symm h.1)]
    rw [ih]
    intro hm
    exact h.2 hm

theorem totalQty_dictDel {d : List (Int × List Order)} {k : Int}
    (hnd : (keysOf d).Nodup) :
    totalQty (dictDel d k) = totalQty d - queueQty (dictGetD d k []) := by
  induction d with
  | nil => simp [dictDel, totalQty, dictGetD, dictGet, queueQty]
  | cons kv rest ih =>
    obtain ⟨k₀, q₀⟩ := kv
    simp only [keysOf, List.map_cons, List.nodup_cons] at hnd
    by_cases h₀ : k₀ = k
    · subst h₀
      have hrest : dictDel rest k₀ = rest := dictDel_of_not_mem hnd.1
      simp [dictDel, hrest, totalQty, dictGetD, dictGet]
    · simp only [dictDel, if_neg h₀, totalQty, List.map_cons, List.sum_cons,
        dictGetD, dictGet, if_neg h₀]
      have := ih hnd.2
      simp only [totalQty, dictGetD] at this
      omega

theorem totalQty_dictSet (d : List (Int × List Order)) (k : Int)
    (q : List Order) :
    totalQty (dictSet d k q) =
      totalQty d - queueQty (dictGetD d k []) + queueQty q := by
  induction d with
  | nil => simp [dictSet, totalQty, dictGetD, dictGet, queueQty]
  | cons kv rest ih =>
    obtain ⟨k₀, q₀⟩ := kv
    by_cases h₀ : k₀ = k
    · subst h₀
      simp [dictSet, totalQty, dictGetD, dictGet]
      omega
    · simp only [dictSet, if_neg h₀, totalQty, List.map_cons, List.sum_cons,
        dictGetD, dictGet, if_neg h₀]
      simp only [totalQty, dictGetD] at ih
      omega

/-! ### Limit-check lemmas -/

/-- A tick respects the aggressor's limit (trades may occur there). -/
def withinLimit (incoming : Side) (limit : Option Int) (t : Int) : Prop :=
  match limit with
  | none => True
  | some l =>
    match incoming with
    | Side.BID => t ≤ l
    | Side.ASK => l ≤ t

/-- A tick is strictly beyond the aggressor's limit (matching must not
touch it). -/
def beyondLimit (incoming : Side) (limit : Option Int) (t : Int) : Prop :=
  match limit with
  | none => False
  | some l =>
    match incoming with
    | Side.BID => l < t
    | Side.ASK => t < l

theorem withinLimit_of_not_break {incoming : Side} {limit : Option Int}
    {best : Int} (h : limitBreak incoming limit best = false) :
    withinLimit incoming limit best := by
  cases limit with
  | none => trivial
  | some l =>
    cases incoming <;>
      simpa [limitBreak, withinLimit, not_lt] using h

theorem ne_of_beyond_within {incoming : Side} {limit : Option Int}
    {t best : Int} (hb : beyondLimit incoming limit t)
    (hw : withinLimit incoming limit best) : best ≠ t := by
  cases limit with
  | none => exact absurd hb not_false
  | some l =>
    cases incoming <;> simp [beyondLimit, withinLimit] at hb hw <;> omega

/-! ### The inner fill loop: full specification -/

theorem fillQueue_spec (bt : Int) :
    ∀ (rem : Int) (q : List Order) (trs : List Trade) (rem' : Int)
      (q' : List Order) (rids : List Nat),
      fillQueue bt rem q = (trs, rem', q', rids) →
      sumTrades trs + rem' = rem ∧
      sumTrades trs + queueQty q' = queueQty q ∧
      (0 ≤ rem → 0 ≤ rem') ∧
      (0 < rem' → q' = []) ∧
      (∀ tr ∈ trs, tr.price_tick = bt) ∧
      ((∀ o ∈ q, 0 < o.quantity) → ∀ o ∈ q', 0 < o.quantity) := by
  intro rem q
  induction q generalizing rem with
  | nil =>
    intro trs rem' q' rids h
    simp only [fillQueue] at h
    injection h with h1 h
    injection h with h2 h
    injection h with h3 h4
    subst h1; subst h2; subst h3
    simp [sumTrades, queueQty]
  | cons o rest ih =>
    intro trs rem' q' rids h
    by_cases hrem : rem ≤ 0
    · simp only [fillQueue, if_pos hrem] at h
      injection h with h1 h
      injection h with h2 h
      injection h with h3 h4
      subst h1; subst h2; subst h3
      refine ⟨by simp [sumTrades], by simp [sumTrades], fun h0 => h0, ?_, by simp, fun hq => hq⟩
      intro hpos
      omega
    · rw [not_le] at hrem
      by_cases hfull : o.quantity - min rem o.quantity = 0
      · rcases hrec : fillQueue bt (rem - min rem o.quantity) rest with
          ⟨trs₁, rem₁, q₁, rids₁⟩
        simp only [fillQueue, if_neg (not_le.2 hrem), if_pos hfull, hrec] at h
        injection h with h1 h
        injection h with h2 h
        injection h with h3 h4
        subst h1; subst h2; subst h3
        obtain ⟨c1, c2, c3, c4, c5, c6⟩ := ih _ _ _ _ _ hrec
        have hmin : min rem o.quantity ≤ rem := min_le_left ..
        refine ⟨?_, ?_, ?_, c4, ?_, ?_⟩
        · simp only [sumTrades, List.map_cons, List.sum_cons] at *
          omega
        · simp only [sumTrades, queueQty, List.map_cons, List.sum_cons] at *
          omega
        · intro h0
          exact c3 (by omega)
        · intro tr htr
          rcases List.mem_cons.1 htr with h | h
          · simp [h]
          · exact c5 tr h
        · intro hpos
          exact c6 (fun o' ho' => hpos o' (List.mem_cons_of_mem _ ho'))
      · simp only [fillQueue, if_neg (not_le.2 hrem), if_neg hfull] at h
        injection h with h1 h
        injection h with h2 h
        injection h with h3 h4
        subst h1; subst h2; subst h3
        have hmin : min rem o.quantity = rem := by
          rcases min_choice rem o.quantity with hc | hc
          · exact hc
          · exact absurd (by omega : o.quantity - min rem o.quantity = 0) hfull
        have hle : min rem o.quantity ≤ o.quantity := min_le_right ..
        refine ⟨?_, ?_, ?_, ?_, ?_, ?_⟩
        · simp only [sumTrades, List.map_cons, List.map_nil, List.sum_cons,
            List.sum_nil]
          omega
        · simp only [sumTrades, queueQty, List.map_cons, List.map_nil,
            List.sum_cons, List.sum_nil]
          omega
        · intro _
          omega
        · intro h0
          omega
        · intro tr htr
          rcases List.mem_cons.1 htr with h | h
          · simp [h]
          · simp at h
        · intro hpos o' ho'
          rcases List.mem_cons.1 ho' with h | h
          · subst h
            simp only []
            omega
          · exact hpos o' (List.mem_cons_of_mem _ h)

/-! ### One matching-loop step: the written-back state -/

theorem sumTrades_append (a b : List Trade) :
    sumTrades (a ++ b) = sumTrades a + sumTrades b := by
  simp [sumTrades]

theorem stepView_levels_ne {v : BookView} {best hd : Int} {tl : List Int}
    {trs : List Trade} {q' : List Order} {rids : List Nat} {t : Int}
    (h : t ≠ best) :
    dictGet (stepView v best hd tl trs q' rids).levels t =
      dictGet v.levels t := by
  by_cases hq : q' = []
  · simp only [stepView, if_pos hq]
    exact dictGet_dictDel_ne _ _ _ h
  · simp only [stepView, if_neg hq]
    exact dictGet_dictSet_ne _ _ _ _ h

theorem stepView_sizes_ne {v : BookView} {best hd : Int} {tl : List Int}
    {trs : List Trade} {q' : List Order} {rids : List Nat} {t : Int}
    (h : t ≠ best) :
    dictGet (stepView v best hd tl trs q' rids).sizes t =
      dictGet v.sizes t := by
  by_cases hq : q' = []
  · simp only [stepView, if_pos hq]
    rw [dictGet_dictDel_ne _ _ _ h]
    exact dictGet_dictSet_ne _ _ _ _ h
  · simp only [stepView, if_neg hq]
    exact dictGet_dictSet_ne _ _ _ _ h

theorem stepView_oindex (v : BookView) (best hd : Int) (tl : List Int)
    (trs : List Trade) (q' : List Order) (rids : List Nat) :
    (stepView v best hd tl trs q' rids).oindex =
      rids.foldl dictDel v.oindex := by
  by_cases hq : q' = [] <;> simp [stepView, hq]

theorem stepView_heap (v : BookView) (best hd : Int) (tl : List Int)
    (trs : List Trade) (q' : List Order) (rids : List Nat) :
    (stepView v best hd tl trs q' rids).heap = hd :: tl := by
  by_cases hq : q' = [] <;> simp [stepView, hq]

theorem stepView_levels_isSome {v : BookView} {best hd : Int} {tl : List Int}
    {trs : List Trade} {q' : List Order} {rids : List Nat} {t : Int}
    (hlive : (dictGet v.levels best).isSome = true) :
    (dictGet (stepView v best hd tl trs q' rids).levels t).isSome = true →
      (dictGet v.levels t).isSome = true := by
  by_cases ht : t = best
  · subst ht
    intro _
    exact hlive
  · rw [stepView_levels_ne ht]
    exact id

/-! ### Unconditional matching-loop properties: trade/quantity
conservation, limit respect, frame beyond the limit, shrink-only
behaviour of levels and index -/

theorem matchLoop_basic (incoming : Side) (limit : Option Int) :
    ∀ (fuel : Nat) (rem : Int) (v : BookView) (trs : List Trade)
      (rem' : Int) (v' : BookView),
      matchLoop incoming limit fuel rem v = (trs, rem', v') →
      sumTrades trs + rem' = rem ∧
      (0 ≤ rem → 0 ≤ rem') ∧
      (∀ tr ∈ trs, withinLimit incoming limit tr.price_tick) ∧
      (∀ t, beyondLimit incoming limit t →
        dictGet v'.levels t = dictGet v.levels t ∧
        dictGet v'.sizes t = dictGet v.sizes t) ∧
      (∀ t, (dictGet v'.levels t).isSome = true →
        (dictGet v.levels t).isSome = true) ∧
      (∀ k, dictGet v'.oindex k = dictGet v.oindex k ∨
        dictGet v'.oindex k = none) := by
  intro fuel
  induction fuel with
  | zero =>
    intro rem v trs rem' v' h
    simp only [matchLoop] at h
    injection h with h1 h
    injection h with h2 h3
    subst h1; subst h2; subst h3
    exact ⟨by simp [sumTrades], fun h0 => h0, by simp, fun t _ => ⟨rfl, rfl⟩,
      fun t h0 => h0, fun k => Or.inl rfl⟩
  | succ fuel ih =>
    intro rem v trs rem' v' h
    by_cases hrem : rem ≤ 0
    · simp only [matchLoop, if_pos hrem] at h
      injection h with h1 h
      injection h with h2 h3
      subst h1; subst h2; subst h3
      exact ⟨by simp [sumTrades], fun h0 => h0, by simp, fun t _ => ⟨rfl, rfl⟩,
        fun t h0 => h0, fun k => Or.inl rfl⟩
    · cases hch : cleanHeap v.levels (matchSign incoming) v.heap with
      | nil =>
        simp only [matchLoop, if_neg hrem, hch] at h
        injection h with h1 h
        injection h with h2 h3
        subst h1; subst h2; subst h3
        exact ⟨by simp [sumTrades], fun h0 => h0, by simp,
          fun t _ => ⟨rfl, rfl⟩, fun t h0 => h0, fun k => Or.inl rfl⟩
      | cons hd tl =>
        cases hbrk : limitBreak incoming limit (matchSign incoming * hd) with
        | true =>
          simp only [matchLoop, if_neg hrem, hch] at h
          rw [if_pos hbrk] at h
          injection h with h1 h
          injection h with h2 h3
          subst h1; subst h2; subst h3
          exact ⟨by simp [sumTrades], fun h0 => h0, by simp,
            fun t _ => ⟨rfl, rfl⟩, fun t h0 => h0, fun k => Or.inl rfl⟩
        | false =>
          simp only [matchLoop, if_neg hrem, hch] at h
          rw [if_neg (by simp [hbrk])] at h
          rcases hfq : fillQueue (matchSign incoming * hd) rem
              (dictGetD v.levels (matchSign incoming * hd) []) with
            ⟨trs₁, rem₁, q₁, rids₁⟩
          rw [hfq] at h
          rcases hrec : matchLoop incoming limit fuel rem₁
              (stepView v (matchSign incoming * hd) hd tl trs₁ q₁ rids₁) with
            ⟨trs₂, rem₂, v₂⟩
          rw [hrec] at h
          have h' : (trs₁ ++ trs₂, rem₂, v₂) = (trs, rem', v') := h
          injection h' with h1 h'
          injection h' with h2 h3
          subst h1; subst h2; subst h3
          obtain ⟨i1, i2, i3, i4, i5, i6⟩ := ih rem₁ _ _ _ _ hrec
          obtain ⟨f1, f2, f3, f4, f5, f6⟩ := fillQueue_spec _ _ _ _ _ _ _ hfq
          obtain ⟨q₀, hq₀, hq₀ne⟩ := cleanHeap_head hch
          have hlive : (dictGet v.levels (matchSign incoming * hd)).isSome
              = true := by rw [hq₀]; rfl
          have hwithin : withinLimit incoming limit (matchSign incoming * hd) :=
            withinLimit_of_not_break hbrk
          refine ⟨?_, ?_, ?_, ?_, ?_, ?_⟩
          · rw [sumTrades_append]
            omega
          · intro h0
            exact i2 (f3 h0)
          · intro tr htr
            rcases List.mem_append.1 htr with hm | hm
            · rw [f5 tr hm]
              exact hwithin
            · exact i3 tr hm
          · intro t hb
            have hne : t ≠ matchSign incoming * hd :=
              Ne.symm (ne_of_beyond_within hb hwithin)
            obtain ⟨il, is⟩ := i4 t hb
            exact ⟨il.trans (stepView_levels_ne hne),
              is.trans (stepView_sizes_ne hne)⟩
          · intro t hs
            exact stepView_levels_isSome hlive (i5 t hs)
          · intro k
            have hfold := dictGet_foldl_dictDel rids₁ v.oindex k
            rcases i6 k with h6 | h6
            · rw [h6, stepView_oindex]
              exact hfold
            · exact Or.inr h6

/-! ### The per-side well-formedness used in the invariant proofs -/

/-- Well-formedness of one side of the book as seen by the matching loop:
unique level keys, no empty FIFO stored, resting quantities positive,
every level tick present (sign-encoded) in the heap, heap sorted (the
model of the `heapq` invariant). -/
def matchInv (sign : Int) (levels : List (Int × List Order))
    (heap : List Int) : Prop :=
  (keysOf levels).Nodup ∧
  (∀ kv ∈ levels, kv.2 ≠ []) ∧
  (∀ kv ∈ levels, ∀ o ∈ kv.2, 0 < o.quantity) ∧
  (∀ kv ∈ levels, sign * kv.1 ∈ heap) ∧
  heap.Pairwise (· ≤ ·)

instance (sign : Int) (levels : List (Int × List Order)) (heap : List Int) :
    Decidable (matchInv sign levels heap) := by
  unfold matchInv
  infer_instance

theorem matchSign_sq (s : Side) : matchSign s * matchSign s = 1 := by
  cases s <;> decide

theorem matchLoop_nonpos (incoming : Side) (limit : Option Int)
    (fuel : Nat) {rem : Int} (v : BookView) (h : rem ≤ 0) :
    matchLoop incoming limit fuel rem v = ([], rem, v) := by
  cases fuel with
  | zero => rfl
  | succ fuel => simp [matchLoop, if_pos h]

theorem live_mem_cleanHeap {sign : Int} (hsq : sign * sign = 1)
    {levels : List (Int × List Order)} {heap : List Int}
    (hnd : (keysOf levels).Nodup)
    (hne : ∀ kv ∈ levels, kv.2 ≠ [])
    (hcomp : ∀ kv ∈ levels, sign * kv.1 ∈ heap)
    {kv : Int × List Order} (hkv : kv ∈ levels) :
    sign * kv.1 ∈ cleanHeap levels sign heap := by
  have hget : dictGet levels kv.1 = some kv.2 :=
    dictGet_eq_some_of_mem hnd (by rw [Prod.mk.eta]; exact hkv)
  have heq : sign * (sign * kv.1) = kv.1 := by
    rw [← mul_assoc, hsq, one_mul]
  refine mem_cleanHeap ?_ (hne kv hkv) (hcomp kv hkv)
  rw [heq]
  exact hget

theorem cleaned_head_le {levels : List (Int × List Order)} {sign : Int}
    {heap : List Int} {hd : Int} {tl : List Int}
    (hsort : heap.Pairwise (· ≤ ·))
    (hch : cleanHeap levels sign heap = hd :: tl) :
    ∀ x ∈ hd :: tl, hd ≤ x := by
  have hsub : (hd :: tl).Pairwise (· ≤ ·) := by
    rw [← hch]
    exact List.Pairwise.sublist (cleanHeap_suffix levels sign heap).sublist
      hsort
  intro x hx
  rcases List.mem_cons.1 hx with h | h
  · exact h ▸ le_refl hd
  · exact (List.pairwise_cons.1 hsub).1 x h

theorem levels_nil_of_cleanHeap_nil {sign : Int}
    {levels : List (Int × List Order)} {heap : List Int}
    (hsq : sign * sign = 1)
    (hnd : (keysOf levels).Nodup)
    (hne : ∀ kv ∈ levels, kv.2 ≠ [])
    (hcomp : ∀ kv ∈ levels, sign * kv.1 ∈ heap)
    (hch : cleanHeap levels sign heap = []) : levels = [] := by
  cases hl : levels with
  | nil => rfl
  | cons kv rest =>
    exfalso
    subst hl
    have := live_mem_cleanHeap hsq hnd hne hcomp (List.mem_cons_self kv rest)
    rw [hch] at this
    simp at this

/-! ### Invariant preservation, liquidity conservation and exit
characterisation of the matching loop (under sufficient fuel) -/

theorem matchLoop_inv (incoming : Side) (limit : Option Int) :
    ∀ (fuel : Nat) (rem : Int) (v : BookView) (trs : List Trade)
      (rem' : Int) (v' : BookView),
      matchLoop incoming limit fuel rem v = (trs, rem', v') →
      matchInv (matchSign incoming) v.levels v.heap →
      (cleanHeap v.levels (matchSign incoming) v.heap).length + 1 ≤ fuel →
      matchInv (matchSign incoming) v'.levels v'.heap ∧
      totalQty v'.levels + sumTrades trs = totalQty v.levels ∧
      (0 < rem' →
        (limit = none → v'.levels = []) ∧
        (∀ l, limit = some l → ∀ kv ∈ v'.levels,
          beyondLimit incoming limit kv.1)) := by
  intro fuel
  induction fuel with
  | zero =>
    intro rem v trs rem' v' h hinv hfuel
    exact absurd hfuel (by omega)
  | succ fuel ih =>
    intro rem v trs rem' v' h hinv hfuel
    obtain ⟨hnd, hne, hpos, hcomp, hsort⟩ := hinv
    by_cases hrem : rem ≤ 0
    · rw [matchLoop_nonpos _ _ _ _ hrem] at h
      injection h with h1 h
      injection h with h2 h3
      subst h1; subst h2; subst h3
      refine ⟨⟨hnd, hne, hpos, hcomp, hsort⟩, by simp [sumTrades], ?_⟩
      intro h0
      exact absurd h0 (by omega)
    · cases hch : cleanHeap v.levels (matchSign incoming) v.heap with
      | nil =>
        have hlv : v.levels = [] :=
          levels_nil_of_cleanHeap_nil (matchSign_sq incoming) hnd hne hcomp hch
        simp only [matchLoop, if_neg hrem, hch] at h
        injection h with h1 h
        injection h with h2 h3
        subst h1; subst h2; subst h3
        refine ⟨⟨hnd, hne, hpos, ?_, List.Pairwise.nil⟩, by simp [sumTrades], ?_⟩
        · intro kv hkv
          rw [hlv] at hkv
          simp at hkv
        · intro _
          refine ⟨fun _ => hlv, fun l hl kv hkv => ?_⟩
          rw [hlv] at hkv
          simp at hkv
      | cons hd tl =>
        have hfuel' : tl.length + 1 ≤ fuel := by
          rw [hch] at hfuel
          simp at hfuel
          omega
        have hsorted' : (hd :: tl).Pairwise (· ≤ ·) := by
          rw [← hch]
          exact List.Pairwise.sublist (cleanHeap_suffix _ _ _).sublist hsort
        have hmemclean : ∀ kv ∈ v.levels,
            matchSign incoming * kv.1 ∈ hd :: tl := fun kv hkv =>
          hch ▸ live_mem_cleanHeap (matchSign_sq incoming) hnd hne hcomp hkv
        cases hbrk : limitBreak incoming limit (matchSign incoming * hd) with
        | true =>
          simp only [matchLoop, if_neg hrem, hch] at h
          rw [if_pos hbrk] at h
          injection h with h1 h
          injection h with h2 h3
          subst h1; subst h2; subst h3
          refine ⟨⟨hnd, hne, hpos, hmemclean, hsorted'⟩,
            by simp [sumTrades], ?_⟩
          intro _
          constructor
          · intro hnone
            rw [hnone] at hbrk
            simp [limitBreak] at hbrk
          · intro l hl kv hkv
            subst hl
            have hge : hd ≤ matchSign incoming * kv.1 :=
              cleaned_head_le hsort hch _ (hmemclean kv hkv)
            cases incoming <;>
              (simp [matchSign, limitBreak, beyondLimit] at hbrk hge ⊢; omega)
        | false =>
          simp only [matchLoop, if_neg hrem, hch] at h
          rw [if_neg (by simp [hbrk])] at h
          rcases hfq : fillQueue (matchSign incoming * hd) rem
              (dictGetD v.levels (matchSign incoming * hd) []) with
            ⟨trs₁, rem₁, q₁, rids₁⟩
          rw [hfq] at h
          obtain ⟨f1, f2, f3, f4, f5, f6⟩ := fillQueue_spec _ _ _ _ _ _ _ hfq
          obtain ⟨q₀, hq₀, hq₀ne⟩ := cleanHeap_head hch
          have hqd : dictGetD v.levels (matchSign incoming * hd) [] = q₀ := by
            simp [dictGetD, hq₀]
          have hq₀pos : ∀ o ∈ q₀, 0 < o.quantity :=
            hpos _ (dictGet_mem hq₀)
          rw [hqd] at f2
          have hhd : matchSign incoming * (matchSign incoming * hd) = hd := by
            rw [← mul_assoc, matchSign_sq, one_mul]
          by_cases hq₁ : q₁ = []
          · subst hq₁
            have hsvl : (stepView v (matchSign incoming * hd) hd tl trs₁ []
                rids₁).levels = dictDel v.levels (matchSign incoming * hd) := by
              simp [stepView]
            have hsvh : (stepView v (matchSign incoming * hd) hd tl trs₁ []
                rids₁).heap = hd :: tl := stepView_heap _ _ _ _ _ _ _
            rcases hrec : matchLoop incoming limit fuel rem₁
                (stepView v (matchSign incoming * hd) hd tl trs₁ [] rids₁) with
              ⟨trs₂, rem₂, v₂⟩
            rw [hrec] at h
            have h' : (trs₁ ++ trs₂, rem₂, v₂) = (trs, rem', v') := h
            injection h' with h1 h'
            injection h' with h2 h3
            subst h1; subst h2; subst h3
            have hinv' : matchInv (matchSign incoming)
                (dictDel v.levels (matchSign incoming * hd)) (hd :: tl) :=
              ⟨keysOf_dictDel_nodup _ hnd,
               fun kv hkv => hne kv (mem_dictDel hkv),
               fun kv hkv => hpos kv (mem_dictDel hkv),
               fun kv hkv => hmemclean kv (mem_dictDel hkv),
               hsorted'⟩
            have hdead : dictGet (dictDel v.levels (matchSign incoming * hd))
                (matchSign incoming * hd) = none := dictGet_dictDel_self _ _
            have hfuel'' : (cleanHeap
                (dictDel v.levels (matchSign incoming * hd))
                (matchSign incoming) (hd :: tl)).length + 1 ≤ fuel := by
              rw [cleanHeap_cons_dead tl hdead]
              have := (cleanHeap_suffix
                (dictDel v.levels (matchSign incoming * hd))
                (matchSign incoming) tl).length_le
              omega
            obtain ⟨I1, I2, I3⟩ := ih rem₁ _ trs₂ rem₂ v₂ hrec
              (by rw [hsvl, hsvh]; exact hinv')
              (by rw [hsvl, hsvh]; exact hfuel'')
            refine ⟨I1, ?_, I3⟩
            rw [hsvl, totalQty_dictDel hnd, hqd] at I2
            have hf2 : sumTrades trs₁ = queueQty q₀ := by
              have : queueQty ([] : List Order) = 0 := by simp [queueQty]
              omega
            rw [sumTrades_append]
            omega
          · have hrem₁ : rem₁ ≤ 0 := by
              by_contra hc
              push_neg at hc
              exact hq₁ (f4 hc)
            rw [matchLoop_nonpos _ _ fuel _ hrem₁] at h
            have h' : (trs₁ ++ [], rem₁,
                stepView v (matchSign incoming * hd) hd tl trs₁ q₁ rids₁) =
                (trs, rem', v') := h
            injection h' with h1 h'
            injection h' with h2 h3
            subst h1; subst h2; subst h3
            have hsvl : (stepView v (matchSign incoming * hd) hd tl trs₁ q₁
                rids₁).levels = dictSet v.levels (matchSign incoming * hd) q₁ := by
              simp [stepView, hq₁]
            have hsvh : (stepView v (matchSign incoming * hd) hd tl trs₁ q₁
                rids₁).heap = hd :: tl := stepView_heap _ _ _ _ _ _ _
            refine ⟨?_, ?_, ?_⟩
            · rw [hsvl, hsvh]
              refine ⟨keysOf_dictSet_nodup _ _ hnd, ?_, ?_, ?_, hsorted'⟩
              · intro kv hkv
                rcases mem_dictSet hkv with hm | hm
                · exact hne kv hm
                · rw [hm]
                  exact hq₁
              · intro kv hkv
                rcases mem_dictSet hkv with hm | hm
                · exact hpos kv hm
                · rw [hm]
                  intro o ho
                  refine f6 ?_ o ho
                  rw [hqd]
                  exact hq₀pos
              · intro kv hkv
                rcases mem_dictSet hkv with hm | hm
                · exact hmemclean kv hm
                · rw [hm]
                  simp only []
                  rw [hhd]
                  exact List.mem_cons_self hd tl
            · rw [hsvl, totalQty_dictSet, hqd, sumTrades_append]
              have : sumTrades ([] : List Trade) = 0 := by simp [sumTrades]
              omega
            · intro h0
              exact absurd h0 (by omega)

/-! ### Further association-list helpers -/

theorem mem_dictSet_nodup {κ α : Type} [DecidableEq κ]
    {d : List (κ × α)} {k : κ} {v : α} {kv : κ × α}
    (hnd : (keysOf d).Nodup) (h : kv ∈ dictSet d k v) :
    kv = (k, v) ∨ (kv ∈ d ∧ kv.1 ≠ k) := by
  induction d with
  | nil =>
    simp [dictSet] at h
    exact Or.inl h
  | cons kv₀ rest ih =>
    obtain ⟨k₀, v₀⟩ := kv₀
    simp only [keysOf, List.map_cons, List.nodup_cons] at hnd
    by_cases h₀ : k₀ = k
    · subst h₀
      simp only [dictSet, if_pos rfl] at h
      rcases List.mem_cons.1 h with h₁ | h₁
      · exact Or.inl h₁
      · refine Or.inr ⟨List.mem_cons_of_mem _ h₁, fun hk => ?_⟩
        exact hnd.1 (hk ▸ List.mem_map_of_mem Prod.fst h₁)
    · simp only [dictSet, if_neg h₀] at h
      rcases List.mem_cons.1 h with h₁ | h₁
      · subst h₁
        exact Or.inr ⟨List.mem_cons_self _ _, h₀⟩
      · rcases ih hnd.2 h₁ with h₂ | h₂
        · exact Or.inl h₂
        · exact Or.inr ⟨List.mem_cons_of_mem _ h₂.1, h₂.2⟩

theorem mem_keysOf_dictDel {κ α : Type} [DecidableEq κ]
    {d : List (κ × α)} {k k' : κ}
    (h : k ∈ keysOf (dictDel d k')) : k ∈ keysOf d := by
  rw [mem_keysOf_iff_isSome] at h ⊢
  by_cases hk : k = k'
  · subst hk
    rw [dictGet_dictDel_self] at h
    cases h
  · rwa [dictGet_dictDel_ne _ _ _ hk] at h

theorem mem_keysOf_dictSet {κ α : Type} [DecidableEq κ]
    {d : List (κ × α)} {k k' : κ} {v : α}
    (h : k ∈ keysOf (dictSet d k' v)) : k = k' ∨ k ∈ keysOf d := by
  by_cases hk : k = k'
  · exact Or.inl hk
  · rw [mem_keysOf_iff_isSome, dictGet_dictSet_ne _ _ _ _ hk,
      ← mem_keysOf_iff_isSome] at h
    exact Or.inr h

theorem removeFirstById_subset {oid : Nat} :
    ∀ {queue nq : List Order} {r : Bool} {q : Int},
      removeFirstById oid queue = (nq, r, q) → ∀ o ∈ nq, o ∈ queue := by
  intro queue
  induction queue with
  | nil =>
    intro nq r q h
    simp only [removeFirstById] at h
    injection h with h1 h
    subst h1
    simp
  | cons o₀ rest ih =>
    intro nq r q h
    by_cases h₀ : o₀.id = oid
    · simp only [removeFirstById, if_pos h₀] at h
      injection h with h1 h
      subst h1
      intro o ho
      exact List.mem_cons_of_mem _ ho
    · rcases hrec : removeFirstById oid rest with ⟨nq₁, r₁, q₁⟩
      simp only [removeFirstById, if_neg h₀, hrec] at h
      injection h with h1 h
      subst h1
      intro o ho
      rcases List.mem_cons.1 ho with hm | hm
      · exact hm ▸ List.mem_cons_self _ _
      · exact List.mem_cons_of_mem _ (ih hrec o hm)

/-! ### `_match_against_book`: wrapper-level specifications -/

theorem match_against_book_basic {b : Orderbook} {incoming : Side}
    {qty : Int} {limit : Option Int} {trs : List Trade} {rem : Int}
    {b' : Orderbook}
    (h : match_against_book b incoming qty limit = (trs, rem, b')) :
    sumTrades trs + rem = qty ∧
    (0 ≤ qty → 0 ≤ rem) ∧
    (∀ tr ∈ trs, withinLimit incoming limit tr.price_tick) ∧
    (∀ t, beyondLimit incoming limit t →
      dictGet (sideLevels b' incoming.opp) t =
        dictGet (sideLevels b incoming.opp) t ∧
      dictGet (sideSizes b' incoming.opp) t =
        dictGet (sideSizes b incoming.opp) t) ∧
    (∀ t, (dictGet (sideLevels b' incoming.opp) t).isSome = true →
      (dictGet (sideLevels b incoming.opp) t).isSome = true) ∧
    (∀ k, dictGet b'.order_index k = dictGet b.order_index k ∨
      dictGet b'.order_index k = none) ∧
    sideLevels b' incoming = sideLevels b incoming ∧
    sideSizes b' incoming = sideSizes b incoming ∧
    sideHeap b' incoming = sideHeap b incoming := by
  cases incoming with
  | BID =>
    rcases hml : matchLoop Side.BID limit (b.ask_heap.length + 1) qty
        ⟨b.asks, b.ask_sizes, b.ask_heap, b.order_index⟩ with ⟨trs₁, rem₁, v₁⟩
    simp only [match_against_book, hml] at h
    injection h with h1 h
    injection h with h2 h3
    subst h1; subst h2; subst h3
    obtain ⟨c1, c2, c3, c4, c5, c6⟩ := matchLoop_basic _ _ _ _ _ _ _ _ hml
    exact ⟨c1, c2, c3, c4, c5, c6, rfl, rfl, rfl⟩
  | ASK =>
    rcases hml : matchLoop Side.ASK limit (b.bid_heap.length + 1) qty
        ⟨b.bids, b.bid_sizes, b.bid_heap, b.order_index⟩ with ⟨trs₁, rem₁, v₁⟩
    simp only [match_against_book, hml] at h
    injection h with h1 h
    injection h with h2 h3
    subst h1; subst h2; subst h3
    obtain ⟨c1, c2, c3, c4, c5, c6⟩ := matchLoop_basic _ _ _ _ _ _ _ _ hml
    exact ⟨c1, c2, c3, c4, c5, c6, rfl, rfl, rfl⟩

theorem match_against_book_inv {b : Orderbook} {incoming : Side}
    {qty : Int} {limit : Option Int} {trs : List Trade} {rem : Int}
    {b' : Orderbook}
    (h : match_against_book b incoming qty limit = (trs, rem, b'))
    (hinv : matchInv (matchSign incoming) (sideLevels b incoming.opp)
      (sideHeap b incoming.opp)) :
    matchInv (matchSign incoming) (sideLevels b' incoming.opp)
      (sideHeap b' incoming.opp) ∧
    totalQty (sideLevels b' incoming.opp) + sumTrades trs =
      totalQty (sideLevels b incoming.opp) ∧
    (0 < rem →
      (limit = none → sideLevels b' incoming.opp = []) ∧
      (∀ l, limit = some l → ∀ kv ∈ sideLevels b' incoming.opp,
        beyondLimit incoming limit kv.1)) := by
  cases incoming with
  | BID =>
    rcases hml : matchLoop Side.BID limit (b.ask_heap.length + 1) qty
        ⟨b.asks, b.ask_sizes, b.ask_heap, b.order_index⟩ with ⟨trs₁, rem₁, v₁⟩
    simp only [match_against_book, hml] at h
    injection h with h1 h
    injection h with h2 h3
    subst h1; subst h2; subst h3
    have hfuel : (cleanHeap b.asks (matchSign Side.BID) b.ask_heap).length + 1
        ≤ b.ask_heap.length + 1 := by
      have := (cleanHeap_suffix b.asks (matchSign Side.BID)
        b.ask_heap).length_le
      omega
    exact matchLoop_inv _ _ _ _ _ _ _ _ hml hinv hfuel
  | ASK =>
    rcases hml : matchLoop Side.ASK limit (b.bid_heap.length + 1) qty
        ⟨b.bids, b.bid_sizes, b.bid_heap, b.order_index⟩ with ⟨trs₁, rem₁, v₁⟩
    simp only [match_against_book, hml] at h
    injection h with h1 h
    injection h with h2 h3
    subst h1; subst h2; subst h3
    have hfuel : (cleanHeap b.bids (matchSign Side.ASK) b.bid_heap).length + 1
        ≤ b.bid_heap.length + 1 := by
      have := (cleanHeap_suffix b.bids (matchSign Side.ASK)
        b.bid_heap).length_le
      omega
    exact matchLoop_inv _ _ _ _ _ _ _ _ hml hinv hfuel

/-! ### `add_limit`: resulting fields and invariant preservation -/

theorem dictGet_none_of_contains_false {κ α : Type} [DecidableEq κ]
    {d : List (κ × α)} {k : κ} (hc : dictContains d k = false) :
    dictGet d k = none := by
  rcases hg : dictGet d k with _ | v
  · rfl
  · rw [dictContains, hg] at hc
    simp at hc

theorem add_limit_type {b b' : Orderbook} {o : Order}
    (h : add_limit b o = some b') : o.type = OrderType.LIMIT := by
  by_contra hc
  simp [add_limit, hc] at h

theorem add_limit_fields {b b' : Orderbook} {o : Order} {p : Int}
    (ht : o.type = OrderType.LIMIT) (hp : o.price_tick = some p)
    (h : add_limit b o = some b') :
    dictGet (sideLevels b' o.side) p =
      some (dictGetD (sideLevels b o.side) p [] ++ [o]) ∧
    (∀ t, t ≠ p → dictGet (sideLevels b' o.side) t =
      dictGet (sideLevels b o.side) t) ∧
    sideLevels b' o.side.opp = sideLevels b o.side.opp ∧
    sideSizes b' o.side.opp = sideSizes b o.side.opp ∧
    sideHeap b' o.side.opp = sideHeap b o.side.opp ∧
    b'.order_index = dictSet b.order_index o.id (o.side, p) := by
  cases hs : o.side with
  | BID =>
    cases hc : dictContains b.bids p with
    | true =>
      simp only [add_limit, ht, hp, hs, hc] at h
      simp at h
      subst h
      refine ⟨dictGet_dictSet_self _ _ _, fun t htp =>
        dictGet_dictSet_ne _ _ _ _ htp, rfl, rfl, rfl, rfl⟩
    | false =>
      have hnone : dictGet b.bids p = none := dictGet_none_of_contains_false hc
      simp only [add_limit, ht, hp, hs, hc] at h
      simp at h
      subst h
      refine ⟨?_, ?_, rfl, rfl, rfl, rfl⟩
      · rw [sideLevels]
        rw [dictGet_dictSet_self]
        rw [sideLevels, dictGetD, dictGet_dictSet_self, dictGetD, hnone]
        rfl
      · intro t htp
        rw [sideLevels, dictGet_dictSet_ne _ _ _ _ htp,
          dictGet_dictSet_ne _ _ _ _ htp]
        rfl
  | ASK =>
    cases hc : dictContains b.asks p with
    | true =>
      simp only [add_limit, ht, hp, hs, hc] at h
      simp at h
      subst h
      refine ⟨dictGet_dictSet_self _ _ _, fun t htp =>
        dictGet_dictSet_ne _ _ _ _ htp, rfl, rfl, rfl, rfl⟩
    | false =>
      have hnone : dictGet b.asks p = none := dictGet_none_of_contains_false hc
      simp only [add_limit, ht, hp, hs, hc] at h
      simp at h
      subst h
      refine ⟨?_, ?_, rfl, rfl, rfl, rfl⟩
      · rw [sideLevels]
        rw [dictGet_dictSet_self]
        rw [sideLevels, dictGetD, dictGet_dictSet_self, dictGetD, hnone]
        rfl
      · intro t htp
        rw [sideLevels, dictGet_dictSet_ne _ _ _ _ htp,
          dictGet_dictSet_ne _ _ _ _ htp]
        rfl

/-- Inserting an order at a fresh level (side-generic): the level and size
entries are created, the tick is pushed on the heap, the order appended. -/
theorem addLevel_fresh_inv {sign : Int} {levels : List (Int × List Order)}
    {heap : List Int} {p : Int} {o : Order}
    (hq : 0 < o.quantity) (hinv : matchInv sign levels heap) :
    matchInv sign
      (dictSet (dictSet levels p []) p
        (dictGetD (dictSet levels p []) p [] ++ [o]))
      (heappush heap (sign * p)) := by
  obtain ⟨hnd, hne, hpos, hcomp, hsort⟩ := hinv
  have hmid : dictGetD (dictSet levels p []) p [] = [] := by
    rw [dictGetD, dictGet_dictSet_self]
    rfl
  have hnd₁ : (keysOf (dictSet levels p [])).Nodup :=
    keysOf_dictSet_nodup _ _ hnd
  refine ⟨keysOf_dictSet_nodup _ _ hnd₁, ?_, ?_, ?_, heappush_sorted hsort _⟩
  · intro kv hkv
    rcases mem_dictSet_nodup hnd₁ hkv with hm | hm
    · rw [hm, hmid]
      simp
    · rcases mem_dictSet_nodup hnd hm.1 with hm₁ | hm₁
      · exact absurd (by rw [hm₁]) hm.2
      · exact hne kv hm₁.1
  · intro kv hkv
    rcases mem_dictSet_nodup hnd₁ hkv with hm | hm
    · rw [hm, hmid]
      intro o' ho'
      simp at ho'
      rw [ho']
      exact hq
    · rcases mem_dictSet_nodup hnd hm.1 with hm₁ | hm₁
      · exact absurd (by rw [hm₁]) hm.2
      · exact hpos kv hm₁.1
  · intro kv hkv
    rcases mem_dictSet_nodup hnd₁ hkv with hm | hm
    · rw [hm]
      exact mem_heappush.2 (Or.inl rfl)
    · rcases mem_dictSet_nodup hnd hm.1 with hm₁ | hm₁
      · exact absurd (by rw [hm₁]) hm.2
      · exact mem_heappush.2 (Or.inr (hcomp kv hm₁.1))

/-- Appending an order to an existing level (side-generic): the heap is
untouched; the level's tick is already on it. -/
theorem addLevel_existing_inv {sign : Int} {levels : List (Int × List Order)}
    {heap : List Int} {p : Int} {o : Order} {q₀ : List Order}
    (hq : 0 < o.quantity) (hinv : matchInv sign levels heap)
    (hsome : dictGet levels p = some q₀) :
    matchInv sign (dictSet levels p (dictGetD levels p [] ++ [o])) heap := by
  obtain ⟨hnd, hne, hpos, hcomp, hsort⟩ := hinv
  have hq₀ : dictGetD levels p [] = q₀ := by rw [dictGetD, hsome]; rfl
  have hq₀mem : (p, q₀) ∈ levels := dictGet_mem hsome
  refine ⟨keysOf_dictSet_nodup _ _ hnd, ?_, ?_, ?_, hsort⟩
  · intro kv hkv
    rcases mem_dictSet_nodup hnd hkv with hm | hm
    · rw [hm, hq₀]
      simp
    · exact hne kv hm.1
  · intro kv hkv
    rcases mem_dictSet_nodup hnd hkv with hm | hm
    · rw [hm, hq₀]
      intro o' ho'
      rcases List.mem_append.1 ho' with ho₁ | ho₁
      · exact hpos _ hq₀mem o' ho₁
      · simp at ho₁
        rw [ho₁]
        exact hq
    · exact hpos kv hm.1
  · intro kv hkv
    rcases mem_dictSet_nodup hnd hkv with hm | hm
    · rw [hm]
      show sign * p ∈ heap
      exact hcomp (p, q₀) hq₀mem
    · exact hcomp kv hm.1

/-- `add_limit` preserves the full book invariant when the inserted order
does not cross the opposite best. -/
theorem add_limit_inv {b b' : Orderbook} {o : Order} {p : Int}
    (hp : o.price_tick = some p) (hq : 0 < o.quantity)
    (h : add_limit b o = some b')
    (hB : matchInv (-1) b.bids b.bid_heap)
    (hA : matchInv 1 b.asks b.ask_heap)
    (hnc : ∀ pb ∈ keysOf b.bids, ∀ pa ∈ keysOf b.asks, pb < pa)
    (hopB : o.side = Side.BID → ∀ pa ∈ keysOf b.asks, p < pa)
    (hopA : o.side = Side.ASK → ∀ pb ∈ keysOf b.bids, pb < p) :
    matchInv (-1) b'.bids b'.bid_heap ∧ matchInv 1 b'.asks b'.ask_heap ∧
    ∀ pb ∈ keysOf b'.bids, ∀ pa ∈ keysOf b'.asks, pb < pa := by
  have ht : o.type = OrderType.LIMIT := add_limit_type h
  cases hs : o.side with
  | BID =>
    cases hc : dictContains b.bids p with
    | true =>
      obtain ⟨q₀, hsome⟩ : ∃ q₀, dictGet b.bids p = some q₀ := by
        rw [dictContains, Option.isSome_iff_exists] at hc
        exact hc
      simp only [add_limit, ht, hp, hs, hc] at h
      simp at h
      subst h
      refine ⟨addLevel_existing_inv hq hB hsome, hA, ?_⟩
      intro pb hpb pa hpa
      rcases mem_keysOf_dictSet hpb with hm | hm
      · subst hm
        refine hnc pb ?_ pa hpa
        rw [mem_keysOf_iff_isSome, hsome]
        rfl
      · exact hnc pb hm pa hpa
    | false =>
      have hnone : dictGet b.bids p = none := dictGet_none_of_contains_false hc
      simp only [add_limit, ht, hp, hs, hc] at h
      simp at h
      subst h
      have hinv' := @addLevel_fresh_inv (-1) b.bids b.bid_heap p o hq hB
      rw [neg_one_mul] at hinv'
      refine ⟨hinv', hA, ?_⟩
      intro pb hpb pa hpa
      rcases mem_keysOf_dictSet hpb with hm | hm
      · subst hm
        exact hopB hs pa hpa
      · rcases mem_keysOf_dictSet hm with hm₁ | hm₁
        · subst hm₁
          exact hopB hs pa hpa
        · exact hnc pb hm₁ pa hpa
  | ASK =>
    cases hc : dictContains b.asks p with
    | true =>
      obtain ⟨q₀, hsome⟩ : ∃ q₀, dictGet b.asks p = some q₀ := by
        rw [dictContains, Option.isSome_iff_exists] at hc
        exact hc
      simp only [add_limit, ht, hp, hs, hc] at h
      simp at h
      subst h
      refine ⟨hB, addLevel_existing_inv hq hA hsome, ?_⟩
      intro pb hpb pa hpa
      rcases mem_keysOf_dictSet hpa with hm | hm
      · subst hm
        refine hnc pb hpb pa ?_
        rw [mem_keysOf_iff_isSome, hsome]
        rfl
      · exact hnc pb hpb pa hm
    | false =>
      have hnone : dictGet b.asks p = none := dictGet_none_of_contains_false hc
      simp only [add_limit, ht, hp, hs, hc] at h
      simp at h
      subst h
      have hinv' := @addLevel_fresh_inv 1 b.asks b.ask_heap p o hq hA
      rw [one_mul] at hinv'
      refine ⟨hB, hinv', ?_⟩
      intro pb hpb pa hpa
      rcases mem_keysOf_dictSet hpa with hm | hm
      · subst hm
        exact hopA hs pb hpb
      · rcases mem_keysOf_dictSet hm with hm₁ | hm₁
        · subst hm₁
          exact hopA hs pb hpb
        · exact hnc pb hpb pa hm₁

/-! ### The book invariant and its preservation by every public
operation -/

/-- No crossed book, stated on the level maps: every bid tick is strictly
below every ask tick. -/
def noCross (b : Orderbook) : Prop :=
  ∀ pb ∈ keysOf b.bids, ∀ pa ∈ keysOf b.asks, pb < pa

instance (b : Orderbook) : Decidable (noCross b) := by
  unfold noCross
  infer_instance

/-- The full book invariant: both sides well-formed, book not crossed. -/
def Inv (b : Orderbook) : Prop :=
  matchInv (-1) b.bids b.bid_heap ∧ matchInv 1 b.asks b.ask_heap ∧ noCross b

instance (b : Orderbook) : Decidable (Inv b) := by
  unfold Inv
  infer_instance

/-- The "already-non-matching" precondition of `add_limit`: the order's
tick does not cross any resting opposite level. -/
def noncrossingOrder (b : Orderbook) (o : Order) : Prop :=
  (o.side = Side.BID → ∀ pa ∈ keysOf b.asks, o.price_tick.getD 0 < pa) ∧
  (o.side = Side.ASK → ∀ pb ∈ keysOf b.bids, pb < o.price_tick.getD 0)

instance (b : Orderbook) (o : Order) : Decidable (noncrossingOrder b o) := by
  unfold noncrossingOrder
  infer_instance

/-- Deleting a level preserves one-sided well-formedness. -/
theorem delLevel_inv {sign : Int} {levels : List (Int × List Order)}
    {heap : List Int} (p : Int) (hinv : matchInv sign levels heap) :
    matchInv sign (dictDel levels p) heap := by
  obtain ⟨hnd, hne, hpos, hcomp, hsort⟩ := hinv
  exact ⟨keysOf_dictDel_nodup _ hnd,
    fun kv hkv => hne kv (mem_dictDel hkv),
    fun kv hkv => hpos kv (mem_dictDel hkv),
    fun kv hkv => hcomp kv (mem_dictDel hkv), hsort⟩

/-- Replacing a level's FIFO by a non-empty subset of its orders preserves
one-sided well-formedness. -/
theorem setLevel_sub_inv {sign : Int} {levels : List (Int × List Order)}
    {heap : List Int} {p : Int} {q₀ rest : List Order}
    (hinv : matchInv sign levels heap) (hg : dictGet levels p = some q₀)
    (hsub : ∀ o ∈ rest, o ∈ q₀) (hne' : rest ≠ []) :
    matchInv sign (dictSet levels p rest) heap := by
  obtain ⟨hnd, hne, hpos, hcomp, hsort⟩ := hinv
  have hmem : (p, q₀) ∈ levels := dictGet_mem hg
  refine ⟨keysOf_dictSet_nodup _ _ hnd, ?_, ?_, ?_, hsort⟩
  · intro kv hkv
    rcases mem_dictSet_nodup hnd hkv with hm | hm
    · rw [hm]
      exact hne'
    · exact hne kv hm.1
  · intro kv hkv
    rcases mem_dictSet_nodup hnd hkv with hm | hm
    · rw [hm]
      intro o ho
      exact hpos _ hmem o (hsub o ho)
    · exact hpos kv hm.1
  · intro kv hkv
    rcases mem_dictSet_nodup hnd hkv with hm | hm
    · rw [hm]
      show sign * p ∈ heap
      exact hcomp (p, q₀) hmem
    · exact hcomp kv hm.1

theorem cancel_at_price_inv (b : Orderbook) (side : Side) (p : Int)
    (hinv : Inv b) : Inv (cancel_at_price b side p).2 := by
  obtain ⟨hB, hA, hnc⟩ := hinv
  cases side with
  | BID =>
    cases hg : dictGet b.bids p with
    | none =>
      simp only [cancel_at_price, hg]
      exact ⟨hB, hA, hnc⟩
    | some q =>
      cases q with
      | nil =>
        simp only [cancel_at_price, hg]
        exact ⟨hB, hA, hnc⟩
      | cons o rest =>
        simp only [cancel_at_price, hg]
        by_cases hr : rest = []
        · simp only [if_pos hr]
          refine ⟨delLevel_inv p hB, hA, ?_⟩
          intro pb hpb pa hpa
          exact hnc pb (mem_keysOf_dictDel hpb) pa hpa
        · simp only [if_neg hr]
          refine ⟨setLevel_sub_inv hB hg
            (fun o' ho' => List.mem_cons_of_mem _ ho') hr, hA, ?_⟩
          intro pb hpb pa hpa
          rcases mem_keysOf_dictSet hpb with hm | hm
          · subst hm
            refine hnc pb ?_ pa hpa
            rw [mem_keysOf_iff_isSome, hg]
            rfl
          · exact hnc pb hm pa hpa
  | ASK =>
    cases hg : dictGet b.asks p with
    | none =>
      simp only [cancel_at_price, hg]
      exact ⟨hB, hA, hnc⟩
    | some q =>
      cases q with
      | nil =>
        simp only [cancel_at_price, hg]
        exact ⟨hB, hA, hnc⟩
      | cons o rest =>
        simp only [cancel_at_price, hg]
        by_cases hr : rest = []
        · simp only [if_pos hr]
          refine ⟨hB, delLevel_inv p hA, ?_⟩
          intro pb hpb pa hpa
          exact hnc pb hpb pa (mem_keysOf_dictDel hpa)
        · simp only [if_neg hr]
          refine ⟨hB, setLevel_sub_inv hA hg
            (fun o' ho' => List.mem_cons_of_mem _ ho') hr, ?_⟩
          intro pb hpb pa hpa
          rcases mem_keysOf_dictSet hpa with hm | hm
          · subst hm
            refine hnc pb hpb pa ?_
            rw [mem_keysOf_iff_isSome, hg]
            rfl
          · exact hnc pb hpb pa hm

theorem cancel_by_id_inv (b : Orderbook) (oid : Nat)
    (hinv : Inv b) : Inv (cancel_by_id b oid).2 := by
  obtain ⟨hB, hA, hnc⟩ := hinv
  cases hg : dictGet b.order_index oid with
  | none =>
    simp only [cancel_by_id, hg]
    exact ⟨hB, hA, hnc⟩
  | some sp =>
    obtain ⟨side, p⟩ := sp
    cases side with
    | BID =>
      cases hq : dictGet b.bids p with
      | none =>
        simp only [cancel_by_id, hg, hq]
        exact ⟨hB, hA, hnc⟩
      | some queue =>
        cases queue with
        | nil =>
          simp only [cancel_by_id, hg, hq]
          exact ⟨hB, hA, hnc⟩
        | cons o₀ rest =>
          rcases hrm : removeFirstById oid (o₀ :: rest) with ⟨nq, removed, rq⟩
          simp only [cancel_by_id, hg, hq, hrm]
          by_cases hnq : nq = []
          · simp only [hnq, ne_eq, not_true_eq_false, if_false]
            refine ⟨delLevel_inv p hB, hA, ?_⟩
            intro pb hpb pa hpa
            exact hnc pb (mem_keysOf_dictDel hpb) pa hpa
          · simp only [ne_eq, hnq, not_false_eq_true, if_true]
            refine ⟨setLevel_sub_inv hB hq
              (removeFirstById_subset hrm) hnq, hA, ?_⟩
            intro pb hpb pa hpa
            rcases mem_keysOf_dictSet hpb with hm | hm
            · subst hm
              refine hnc pb ?_ pa hpa
              rw [mem_keysOf_iff_isSome, hq]
              rfl
            · exact hnc pb hm pa hpa
    | ASK =>
      cases hq : dictGet b.asks p with
      | none =>
        simp only [cancel_by_id, hg, hq]
        exact ⟨hB, hA, hnc⟩
      | some queue =>
        cases queue with
        | nil =>
          simp only [cancel_by_id, hg, hq]
          exact ⟨hB, hA, hnc⟩
        | cons o₀ rest =>
          rcases hrm : removeFirstById oid (o₀ :: rest) with ⟨nq, removed, rq⟩
          simp only [cancel_by_id, hg, hq, hrm]
          by_cases hnq : nq = []
          · simp only [hnq, ne_eq, not_true_eq_false, if_false]
            refine ⟨hB, delLevel_inv p hA, ?_⟩
            intro pb hpb pa hpa
            exact hnc pb hpb pa (mem_keysOf_dictDel hpa)
          · simp only [ne_eq, hnq, not_false_eq_true, if_true]
            refine ⟨hB, setLevel_sub_inv hA hq
              (removeFirstById_subset hrm) hnq, ?_⟩
            intro pb hpb pa hpa
            rcases mem_keysOf_dictSet hpa with hm | hm
            · subst hm
              refine hnc pb hpb pa ?_
              rw [mem_keysOf_iff_isSome, hq]
              rfl
            · exact hnc pb hpb pa hm

theorem match_preserves_inv {b : Orderbook} {incoming : Side} {qty : Int}
    {limit : Option Int} {trs : List Trade} {rem : Int} {b' : Orderbook}
    (h : match_against_book b incoming qty limit = (trs, rem, b'))
    (hinv : Inv b) : Inv b' := by
  obtain ⟨hB, hA, hnc⟩ := hinv
  obtain ⟨c1, c2, c3, c4, c5, c6, csl, css, csh⟩ := match_against_book_basic h
  cases incoming with
  | BID =>
    obtain ⟨i1, i2, i3⟩ := match_against_book_inv h hA
    have hbids : b'.bids = b.bids := csl
    have hheap : b'.bid_heap = b.bid_heap := csh
    refine ⟨by rw [hbids, hheap]; exact hB, i1, ?_⟩
    intro pb hpb pa hpa
    rw [hbids] at hpb
    rw [mem_keysOf_iff_isSome] at hpa
    have := c5 pa hpa
    rw [← mem_keysOf_iff_isSome] at this
    exact hnc pb hpb pa this
  | ASK =>
    obtain ⟨i1, i2, i3⟩ := match_against_book_inv h hB
    have hasks : b'.asks = b.asks := csl
    have hheap : b'.ask_heap = b.ask_heap := csh
    refine ⟨i1, by rw [hasks, hheap]; exact hA, ?_⟩
    intro pb hpb pa hpa
    rw [hasks] at hpa
    rw [mem_keysOf_iff_isSome] at hpb
    have := c5 pb hpb
    rw [← mem_keysOf_iff_isSome] at this
    exact hnc pb this pa hpa

theorem match_exit_noncross {b : Orderbook} {incoming : Side} {qty : Int}
    {p : Int} {trs : List Trade} {rem : Int} {b' : Orderbook}
    (h : match_against_book b incoming qty (some p) = (trs, rem, b'))
    (hinv : Inv b) (hrem : 0 < rem) :
    (incoming = Side.BID → ∀ pa ∈ keysOf b'.asks, p < pa) ∧
    (incoming = Side.ASK → ∀ pb ∈ keysOf b'.bids, pb < p) := by
  obtain ⟨hB, hA, hnc⟩ := hinv
  cases incoming with
  | BID =>
    obtain ⟨i1, i2, i3⟩ := match_against_book_inv h hA
    constructor
    · intro _ pa hpa
      rcases List.mem_map.1 hpa with ⟨kv, hkv, hfst⟩
      subst hfst
      exact (i3 hrem).2 p rfl kv hkv
    · intro hcon
      cases hcon
  | ASK =>
    obtain ⟨i1, i2, i3⟩ := match_against_book_inv h hB
    constructor
    · intro hcon
      cases hcon
    · intro _ pb hpb
      rcases List.mem_map.1 hpb with ⟨kv, hkv, hfst⟩
      subst hfst
      exact (i3 hrem).2 p rfl kv hkv

theorem add_order_inv {b : Orderbook} {o : Order} {trs : List Trade}
    {o' : Order} {b' : Orderbook}
    (hval : o.valid) (h : add_order b o = some (trs, o', b'))
    (hinv : Inv b) : Inv b' := by
  obtain ⟨hqty, hlim, _⟩ := hval
  by_cases ht : o.type = OrderType.LIMIT
  · rcases hpt : o.price_tick with _ | p
    · exfalso
      have := hlim ht
      rw [hpt] at this
      simp at this
    · rcases hm : match_against_book b o.side o.quantity o.price_tick with
        ⟨trs₁, rem₁, b₁⟩
      rw [add_order, if_pos ht] at h
      simp only [hm] at h
      rw [hpt] at hm
      have hinv₁ : Inv b₁ := match_preserves_inv hm hinv
      by_cases hrem : 0 < rem₁
      · rw [if_pos hrem] at h
        rcases hal : add_limit b₁ { o with quantity := rem₁ } with _ | b₂
        · rw [hal] at h
          cases h
        · rw [hal] at h
          simp at h
          obtain ⟨-, -, hb⟩ := h
          subst hb
          obtain ⟨hex₁, hex₂⟩ := match_exit_noncross hm hinv hrem
          obtain ⟨hB₁, hA₁, hnc₁⟩ := hinv₁
          have hp' : ({ o with quantity := rem₁ } : Order).price_tick
              = some p := hpt
          obtain ⟨j1, j2, j3⟩ := add_limit_inv hp' hrem hal hB₁ hA₁ hnc₁
            (fun hs => hex₁ hs) (fun hs => hex₂ hs)
          exact ⟨j1, j2, j3⟩
      · rw [if_neg hrem] at h
        simp at h
        obtain ⟨-, -, hb⟩ := h
        subst hb
        exact hinv₁
  · have htm : o.type = OrderType.MARKET := by
      cases hot : o.type
      · exact absurd hot ht
      · rfl
    rcases hm : match_against_book b o.side o.quantity none with
      ⟨trs₁, rem₁, b₁⟩
    rw [add_order, if_neg ht, matchtrade,
      if_neg (by rw [htm]; exact fun hc => hc rfl)] at h
    simp only [hm] at h
    simp at h
    obtain ⟨-, -, hb⟩ := h
    subst hb
    exact match_preserves_inv hm hinv

/-! ### Reachable book states -/

/-- Book states reachable from the empty book by valid submissions:
`add_limit` on valid non-crossing LIMIT input, `add_order` on valid
orders, and the two cancellation operations. -/
inductive Reachable : Orderbook → Prop where
  | empty : Reachable Orderbook.empty
  | limit (b b' : Orderbook) (o : Order) : Reachable b → o.valid →
      noncrossingOrder b o → add_limit b o = some b' → Reachable b'
  | order (b b' : Orderbook) (o : Order) (trs : List Trade) (o' : Order) :
      Reachable b → o.valid → add_order b o = some (trs, o', b') →
      Reachable b'
  | cap (b : Orderbook) (side : Side) (p : Int) :
      Reachable b → Reachable (cancel_at_price b side p).2
  | cbi (b : Orderbook) (oid : Nat) :
      Reachable b → Reachable (cancel_by_id b oid).2

theorem reachable_inv {b : Orderbook} (h : Reachable b) : Inv b := by
  induction h with
  | empty =>
    refine ⟨⟨?_, ?_, ?_, ?_, ?_⟩, ⟨?_, ?_, ?_, ?_, ?_⟩, ?_⟩ <;>
      simp [Orderbook.empty, keysOf, noCross]
  | limit b b' o hr hval hncr hal ih =>
    obtain ⟨hqty, hlim, _⟩ := hval
    have ht : o.type = OrderType.LIMIT := add_limit_type hal
    rcases hpt : o.price_tick with _ | p
    · exfalso
      have := hlim ht
      rw [hpt] at this
      simp at this
    · obtain ⟨hB, hA, hnc⟩ := ih
      obtain ⟨hnc₁, hnc₂⟩ := hncr
      obtain ⟨j1, j2, j3⟩ := add_limit_inv hpt hqty hal hB hA hnc
        (fun hs => by
          have := hnc₁ hs
          rw [hpt] at this
          exact this)
        (fun hs => by
          have := hnc₂ hs
          rw [hpt] at this
          exact this)
      exact ⟨j1, j2, j3⟩
  | order b b' o trs o' hr hval hao ih => exact add_order_inv hval hao ih
  | cap b side p hr ih => exact cancel_at_price_inv b side p ih
  | cbi b oid hr ih => exact cancel_by_id_inv b oid ih

/-- Field-wise extensionality for orderbooks. -/
theorem Orderbook.ext' {b b' : Orderbook}
    (h1 : b.bids = b'.bids) (h2 : b.asks = b'.asks)
    (h3 : b.bid_sizes = b'.bid_sizes) (h4 : b.ask_sizes = b'.ask_sizes)
    (h5 : b.bid_heap = b'.bid_heap) (h6 : b.ask_heap = b'.ask_heap)
    (h7 : b.order_index = b'.order_index) : b = b' := by
  cases b
  cases b'
  simp only [] at h1 h2 h3 h4 h5 h6 h7
  subst h1; subst h2; subst h3; subst h4; subst h5; subst h6; subst h7
  rfl

/-! ### Claim theorems -/

/-- C1.  The claim states that `emit_order` yields an `Add` if and only if
the LIMIT order actually rested (residual remained after matching), so a
fully filled LIMIT yields no `Add`.  The code violates this: `add_order`
only writes the residual back into `order.quantity` when it is positive,
so a LIMIT that is fully filled keeps its original positive quantity and
`emit_order`'s test `order.quantity > 0` fires.  At the failing input —
book holding `ASK id=1 qty=5 tick=100`, submission of
`LIMIT BID id=2 qty=5 tick=100` — the order is fully filled (one Execute
for all 5 units, and the book's order index does not contain id 2), yet an
`Add{order_id=2, quantity=5}` is emitted. -/
theorem C1_phantom_add_on_full_fill :
    (emit_order (getBook (add_limit Orderbook.empty
        (mkLimit 1 Side.ASK 5 100))) (mkLimit 2 Side.BID 5 100) 0).map
      (fun r => (r.1, r.2.1)) =
      some ([L3Msg.execute 1 1 100 5 Side.BID,
             L3Msg.add 2 2 Side.BID 100 5], 2) ∧
    (emit_order (getBook (add_limit Orderbook.empty
        (mkLimit 1 Side.ASK 5 100))) (mkLimit 2 Side.BID 5 100) 0).map
      (fun r => dictGet r.2.2.order_index 2) = some none := by
  decide

/-- C5.  The claim states that after every public operation the set of
ticks in the size map equals the set of ticks in the level map, in
particular after `cancel_by_id` removes the last order at a level.  The
code violates this: `cancel_by_id` deletes both entries when the rebuilt
FIFO is empty, but then — because `removed_qty` is non-zero — re-inserts
`sizes[price_tick] = max(0, 0 - removed_qty) = 0`.  At the failing input —
a book holding only `BID id=1 qty=5 tick=100`, then `cancel_by_id(1)` —
the level map is empty while the size map still has the key 100. -/
theorem C5_stale_size_after_cancel_by_id :
    (cancel_by_id (getBook (add_limit Orderbook.empty
        (mkLimit 1 Side.BID 5 100))) 1).1 = true ∧
    (cancel_by_id (getBook (add_limit Orderbook.empty
        (mkLimit 1 Side.BID 5 100))) 1).2.bids = [] ∧
    (cancel_by_id (getBook (add_limit Orderbook.empty
        (mkLimit 1 Side.BID 5 100))) 1).2.bid_sizes = [(100, 0)] := by
  decide

/-- C6.  `cancel_by_id` on an id that is not registered in the global
order index returns `false` and leaves the book completely unchanged
(the very first lookup fails and the function returns before touching any
state). -/
theorem C6_cancel_unknown_id {b : Orderbook} {oid : Nat}
    (h : dictGet b.order_index oid = none) :
    cancel_by_id b oid = (false, b) := by
  simp only [cancel_by_id, h]

theorem C6_cancel_unknown_id_witness :
    cancel_by_id (getBook (add_limit Orderbook.empty
      (mkLimit 1 Side.BID 5 100))) 7 =
      (false, getBook (add_limit Orderbook.empty
        (mkLimit 1 Side.BID 5 100))) :=
  C6_cancel_unknown_id (by decide)

/-- C7 counterexample.  The claim states that a MARKET order against an
empty opposite side leaves *all* fields of the book unchanged, including
both heaps.  The code violates this: `_match_against_book` calls
`_clean_top`, which pops stale entries from the opposite heap.  Failing
input: rest `ASK id=1 qty=5 tick=100`, cancel it via `cancel_at_price`
(which deletes the level but leaves the heap entry), then submit
`MARKET BID id=2 qty=3`: the ask heap changes from `[100]` to `[]`. -/
theorem C7_counterexample :
    ((cancel_at_price (getBook (add_limit Orderbook.empty
        (mkLimit 1 Side.ASK 5 100))) Side.ASK 100).2.asks = [] ∧
     (cancel_at_price (getBook (add_limit Orderbook.empty
        (mkLimit 1 Side.ASK 5 100))) Side.ASK 100).2.ask_heap = [100]) ∧
    (add_order (cancel_at_price (getBook (add_limit Orderbook.empty
        (mkLimit 1 Side.ASK 5 100))) Side.ASK 100).2
      (mkMarket 2 Side.BID 3)).map (fun r => (r.1, r.2.2.ask_heap)) =
      some ([], []) := by
  decide

/-- C7 (amended).  Submitting a valid MARKET order when the opposite side
holds no resting orders returns an empty trade list and mutates nothing
except the lazy cleanup of the opposite heap, which is left fully cleaned
(empty); in particular both level maps, both size maps, the order index
and the same-side heap are unchanged, and when the opposite heap held no
stale entries the book is completely unchanged. -/
theorem C7_market_on_empty_opposite {b : Orderbook} {o : Order}
    (ht : o.type = OrderType.MARKET) (hq : 0 < o.quantity)
    (hemp : ∀ kv ∈ sideLevels b o.side.opp, kv.2 = []) :
    ∃ b', add_order b o = some ([], o, b') ∧
      b'.bids = b.bids ∧ b'.asks = b.asks ∧
      b'.bid_sizes = b.bid_sizes ∧ b'.ask_sizes = b.ask_sizes ∧
      b'.order_index = b.order_index ∧
      sideHeap b' o.side = sideHeap b o.side ∧
      sideHeap b' o.side.opp = [] ∧
      (sideHeap b o.side.opp = [] → b' = b) := by
  have htm : ¬ o.type ≠ OrderType.MARKET := fun hc => hc ht
  have hto : o.type ≠ OrderType.LIMIT := by
    rw [ht]
    intro hc
    cases hc
  cases hs : o.side with
  | BID =>
    have hemp' : ∀ kv ∈ b.asks, kv.2 = [] := by
      intro kv hkv
      refine hemp kv ?_
      rw [hs]
      exact hkv
    have hclean : cleanHeap b.asks (matchSign Side.BID) b.ask_heap = [] :=
      cleanHeap_eq_nil _ _ hemp'
    have hml : matchLoop Side.BID none (b.ask_heap.length + 1) o.quantity
        ⟨b.asks, b.ask_sizes, b.ask_heap, b.order_index⟩ =
        ([], o.quantity, ⟨b.asks, b.ask_sizes, [], b.order_index⟩) := by
      rw [matchLoop]
      rw [if_neg (by omega)]
      simp only [hclean]
    refine ⟨{ b with ask_heap := [] }, ?_, rfl, rfl, rfl, rfl, rfl, rfl, ?_, ?_⟩
    · rw [add_order, if_neg hto, matchtrade, if_neg htm, hs,
        match_against_book]
      simp only [hml]
    · rfl
    · intro hh
      exact Orderbook.ext' rfl rfl rfl rfl rfl hh.symm rfl
  | ASK =>
    have hemp' : ∀ kv ∈ b.bids, kv.2 = [] := by
      intro kv hkv
      refine hemp kv ?_
      rw [hs]
      exact hkv
    have hclean : cleanHeap b.bids (matchSign Side.ASK) b.bid_heap = [] :=
      cleanHeap_eq_nil _ _ hemp'
    have hml : matchLoop Side.ASK none (b.bid_heap.length + 1) o.quantity
        ⟨b.bids, b.bid_sizes, b.bid_heap, b.order_index⟩ =
        ([], o.quantity, ⟨b.bids, b.bid_sizes, [], b.order_index⟩) := by
      rw [matchLoop]
      rw [if_neg (by omega)]
      simp only [hclean]
    refine ⟨{ b with bid_heap := [] }, ?_, rfl, rfl, rfl, rfl, rfl, rfl, ?_, ?_⟩
    · rw [add_order, if_neg hto, matchtrade, if_neg htm, hs,
        match_against_book]
      simp only [hml]
    · rfl
    · intro hh
      exact Orderbook.ext' rfl rfl rfl rfl hh.symm rfl rfl

theorem C7_market_on_empty_opposite_witness :
    ∃ b', add_order Orderbook.empty (mkMarket 1 Side.BID 5) =
        some ([], mkMarket 1 Side.BID 5, b') ∧
      b'.bids = Orderbook.empty.bids ∧ b'.asks = Orderbook.empty.asks ∧
      b'.bid_sizes = Orderbook.empty.bid_sizes ∧
      b'.ask_sizes = Orderbook.empty.ask_sizes ∧
      b'.order_index = Orderbook.empty.order_index ∧
      sideHeap b' (mkMarket 1 Side.BID 5).side =
        sideHeap Orderbook.empty (mkMarket 1 Side.BID 5).side ∧
      sideHeap b' (mkMarket 1 Side.BID 5).side.opp = [] ∧
      (sideHeap Orderbook.empty (mkMarket 1 Side.BID 5).side.opp = [] →
        b' = Orderbook.empty) :=
  C7_market_on_empty_opposite (by decide) (by decide) (by decide)

/-- C2.  For a LIMIT order submitted via `add_order`: every returned trade
has a price tick that does not cross the order's limit (aggressor BID:
`tick ≤ p`; aggressor ASK: `p ≤ tick`); matching never touches an opposite
level strictly beyond the limit (its FIFO is unchanged); and when residual
quantity `o.quantity - Σ trade quantities` remains, it is rested at the
order's own `price_tick` — the level FIFO is the old FIFO with the order
appended, carrying exactly the residual quantity — and the order is
registered in the global index at `(side, price_tick)`. -/
theorem C2_limit_respects_limit_and_rests_residual {b : Orderbook}
    {o : Order} {p : Int}
    (ht : o.type = OrderType.LIMIT) (hp : o.price_tick = some p)
    {trs : List Trade} {o' : Order} {b' : Orderbook}
    (h : add_order b o = some (trs, o', b')) :
    (∀ tr ∈ trs, (o.side = Side.BID → tr.price_tick ≤ p) ∧
      (o.side = Side.ASK → p ≤ tr.price_tick)) ∧
    (∀ t, (o.side = Side.BID → p < t →
        dictGet b'.asks t = dictGet b.asks t) ∧
      (o.side = Side.ASK → t < p →
        dictGet b'.bids t = dictGet b.bids t)) ∧
    (0 < o.quantity - sumTrades trs →
      dictGet (sideLevels b' o.side) p =
        some (dictGetD (sideLevels b o.side) p [] ++
          [{ o with quantity := o.quantity - sumTrades trs }]) ∧
      dictGet b'.order_index o.id = some (o.side, p)) := by
  rcases hm : match_against_book b o.side o.quantity o.price_tick with
    ⟨trs₁, rem₁, b₁⟩
  rw [add_order, if_pos ht] at h
  simp only [hm] at h
  rw [hp] at hm
  obtain ⟨c1, c2, c3, c4, c5, c6, csl, css, csh⟩ := match_against_book_basic hm
  by_cases hrem : 0 < rem₁
  · rw [if_pos hrem] at h
    rcases hal : add_limit b₁ { o with quantity := rem₁ } with _ | b₂
    · rw [hal] at h
      cases h
    · rw [hal] at h
      simp at h
      obtain ⟨h1, h2, h3⟩ := h
      subst h1; subst h2; subst h3
      have hremeq : rem₁ = o.quantity - sumTrades trs₁ := by omega
      obtain ⟨a1, a2, a3, a4, a5, a6⟩ :=
        @add_limit_fields b₁ b₂ { o with quantity := rem₁ } p ht hp hal
      have hopp : sideLevels b₂ o.side.opp = sideLevels b₁ o.side.opp := a3
      refine ⟨?_, ?_, ?_⟩
      · intro tr htr
        have hw := c3 tr htr
        constructor
        · intro hs
          rw [hs] at hw
          exact hw
        · intro hs
          rw [hs] at hw
          exact hw
      · intro t
        constructor
        · intro hs hlt
          have hb1 := (c4 t (by rw [hs]; exact hlt)).1
          show dictGet (sideLevels b₂ Side.BID.opp) t =
            dictGet (sideLevels b Side.BID.opp) t
          rw [← hs, hopp]
          exact hb1
        · intro hs hlt
          have hb1 := (c4 t (by rw [hs]; exact hlt)).1
          show dictGet (sideLevels b₂ Side.ASK.opp) t =
            dictGet (sideLevels b Side.ASK.opp) t
          rw [← hs, hopp]
          exact hb1
      · intro _
        have ha1 : dictGet (sideLevels b₂ o.side) p =
            some (dictGetD (sideLevels b₁ o.side) p [] ++
              [{ o with quantity := rem₁ }]) := a1
        have ha6 : b₂.order_index =
            dictSet b₁.order_index o.id (o.side, p) := a6
        rw [← hremeq]
        constructor
        · rw [ha1, csl]
        · rw [ha6, dictGet_dictSet_self]
  · rw [if_neg hrem] at h
    simp at h
    obtain ⟨h1, h2, h3⟩ := h
    subst h1; subst h2; subst h3
    refine ⟨?_, ?_, ?_⟩
    · intro tr htr
      have hw := c3 tr htr
      constructor
      · intro hs
        rw [hs] at hw
        exact hw
      · intro hs
        rw [hs] at hw
        exact hw
    · intro t
      constructor
      · intro hs hlt
        have hb1 := (c4 t (by rw [hs]; exact hlt)).1
        show dictGet (sideLevels b₁ Side.BID.opp) t =
          dictGet (sideLevels b Side.BID.opp) t
        rw [← hs]
        exact hb1
      · intro hs hlt
        have hb1 := (c4 t (by rw [hs]; exact hlt)).1
        show dictGet (sideLevels b₁ Side.ASK.opp) t =
          dictGet (sideLevels b Side.ASK.opp) t
        rw [← hs]
        exact hb1
    · intro h0
      exact absurd h0 (by omega)

theorem C2_witness :
    let b := getBook (add_limit (getBook (add_limit Orderbook.empty
      (mkLimit 1 Side.ASK 2 100))) (mkLimit 2 Side.ASK 2 103))
    let o := mkLimit 3 Side.BID 5 101
    let r := (add_order b o).getD ([], o, Orderbook.empty)
    (∀ tr ∈ r.1, (o.side = Side.BID → tr.price_tick ≤ 101) ∧
      (o.side = Side.ASK → 101 ≤ tr.price_tick)) ∧
    (∀ t, (o.side = Side.BID → 101 < t →
        dictGet r.2.2.asks t = dictGet b.asks t) ∧
      (o.side = Side.ASK → t < 101 →
        dictGet r.2.2.bids t = dictGet b.bids t)) ∧
    (0 < o.quantity - sumTrades r.1 →
      dictGet (sideLevels r.2.2 o.side) 101 =
        some (dictGetD (sideLevels b o.side) 101 [] ++
          [{ o with quantity := o.quantity - sumTrades r.1 }]) ∧
      dictGet r.2.2.order_index o.id = some (o.side, 101)) := by
  intro b o r
  exact @C2_limit_respects_limit_and_rests_residual b o 101 rfl rfl
    r.1 r.2.1 r.2.2 (by decide)

/-- C3.  For a valid MARKET order submitted via `add_order` to a book
satisfying the invariants, the sum of the returned trade quantities is
`min(order.quantity, total resting quantity on the opposite side before
submission)`, and nothing is rested: the same-side level map, size map and
heap are unchanged and the order's id is not registered in the global
index (when it was not registered before). -/
theorem C3_market_fill_is_min {b : Orderbook} {o : Order}
    (hinv : Inv b) (ht : o.type = OrderType.MARKET) (hq : 0 < o.quantity)
    {trs : List Trade} {o' : Order} {b' : Orderbook}
    (h : add_order b o = some (trs, o', b')) :
    sumTrades trs = min o.quantity (totalQty (sideLevels b o.side.opp)) ∧
    sideLevels b' o.side = sideLevels b o.side ∧
    sideSizes b' o.side = sideSizes b o.side ∧
    sideHeap b' o.side = sideHeap b o.side ∧
    (dictGet b.order_index o.id = none →
      dictGet b'.order_index o.id = none) := by
  have hto : o.type ≠ OrderType.LIMIT := by
    rw [ht]
    intro hc
    cases hc
  rcases hm : match_against_book b o.side o.quantity none with ⟨trs₁, rem₁, b₁⟩
  rw [add_order, if_neg hto, matchtrade, if_neg (fun hc => hc ht)] at h
  simp only [hm] at h
  simp at h
  obtain ⟨h1, h2, h3⟩ := h
  subst h1; subst h2; subst h3
  obtain ⟨c1, c2, c3, c4, c5, c6, csl, css, csh⟩ := match_against_book_basic hm
  have hoppinv : matchInv (matchSign o.side) (sideLevels b o.side.opp)
      (sideHeap b o.side.opp) := by
    cases o.side
    · exact hinv.2.1
    · exact hinv.1
  obtain ⟨i1, i2, i3⟩ := match_against_book_inv hm hoppinv
  have hrem0 : 0 ≤ rem₁ := c2 (by omega)
  have htot' : 0 ≤ totalQty (sideLevels b₁ o.side.opp) :=
    totalQty_nonneg i1.2.2.1
  refine ⟨?_, csl, css, csh, ?_⟩
  · by_cases h0 : 0 < rem₁
    · have hnil := (i3 h0).1 rfl
      rw [hnil] at i2
      have : totalQty ([] : List (Int × List Order)) = 0 := by
        simp [totalQty]
      omega
    · omega
  · intro hnone
    rcases c6 o.id with he | he
    · rw [he]
      exact hnone
    · exact he

theorem C3_market_fill_is_min_witness :
    let b := getBook (add_limit (getBook (add_limit Orderbook.empty
      (mkLimit 1 Side.ASK 2 100))) (mkLimit 2 Side.ASK 2 101))
    let o := mkMarket 3 Side.BID 9
    let r := (add_order b o).getD ([], o, Orderbook.empty)
    sumTrades r.1 = min o.quantity (totalQty (sideLevels b o.side.opp)) ∧
    sideLevels r.2.2 o.side = sideLevels b o.side ∧
    sideSizes r.2.2 o.side = sideSizes b o.side ∧
    sideHeap r.2.2 o.side = sideHeap b o.side ∧
    (dictGet b.order_index o.id = none →
      dictGet r.2.2.order_index o.id = none) := by
  intro b o r
  exact @C3_market_fill_is_min b o (by decide) rfl (by decide)
    r.1 r.2.1 r.2.2 (by decide)

/-- C10.  Matching is one-sided: the matching loop never touches the
aggressor's own side (for a BID aggressor `bids`, `bid_sizes` and
`bid_heap` are returned unchanged, and symmetrically for an ASK); a MARKET
order leaves the same-side structures unchanged through `add_order`; and
an aggressive LIMIT changes its own side only by resting the residual —
the book after `add_order` is the post-match book when nothing remains,
and exactly `add_limit` of the residual order applied to the post-match
book when residual remains. -/
theorem C10_matching_one_sided (b : Orderbook) (qty : Int)
    (lim : Option Int) :
    ((match_against_book b Side.BID qty lim).2.2.bids = b.bids ∧
     (match_against_book b Side.BID qty lim).2.2.bid_sizes = b.bid_sizes ∧
     (match_against_book b Side.BID qty lim).2.2.bid_heap = b.bid_heap) ∧
    ((match_against_book b Side.ASK qty lim).2.2.asks = b.asks ∧
     (match_against_book b Side.ASK qty lim).2.2.ask_sizes = b.ask_sizes ∧
     (match_against_book b Side.ASK qty lim).2.2.ask_heap = b.ask_heap) ∧
    (∀ o trs o' b', o.type = OrderType.MARKET →
      add_order b o = some (trs, o', b') →
      sideLevels b' o.side = sideLevels b o.side ∧
      sideSizes b' o.side = sideSizes b o.side ∧
      sideHeap b' o.side = sideHeap b o.side) ∧
    (∀ o trs o' b' p, o.type = OrderType.LIMIT → o.price_tick = some p →
      add_order b o = some (trs, o', b') →
      sideLevels (match_against_book b o.side o.quantity (some p)).2.2 o.side
        = sideLevels b o.side ∧
      sideSizes (match_against_book b o.side o.quantity (some p)).2.2 o.side
        = sideSizes b o.side ∧
      sideHeap (match_against_book b o.side o.quantity (some p)).2.2 o.side
        = sideHeap b o.side ∧
      ((match_against_book b o.side o.quantity (some p)).2.1 ≤ 0 →
        b' = (match_against_book b o.side o.quantity (some p)).2.2) ∧
      (0 < (match_against_book b o.side o.quantity (some p)).2.1 →
        add_limit (match_against_book b o.side o.quantity (some p)).2.2
          { o with quantity :=
              (match_against_book b o.side o.quantity (some p)).2.1 } =
          some b')) := by
  refine ⟨?_, ?_, ?_, ?_⟩
  · rcases hml : matchLoop Side.BID lim (b.ask_heap.length + 1) qty
        ⟨b.asks, b.ask_sizes, b.ask_heap, b.order_index⟩ with ⟨trs₁, rem₁, v₁⟩
    simp [match_against_book, hml]
  · rcases hml : matchLoop Side.ASK lim (b.bid_heap.length + 1) qty
        ⟨b.bids, b.bid_sizes, b.bid_heap, b.order_index⟩ with ⟨trs₁, rem₁, v₁⟩
    simp [match_against_book, hml]
  · intro o trs o' b' ht h
    have hto : o.type ≠ OrderType.LIMIT := by
      rw [ht]
      intro hc
      cases hc
    rcases hm : match_against_book b o.side o.quantity none with
      ⟨trs₁, rem₁, b₁⟩
    rw [add_order, if_neg hto, matchtrade, if_neg (fun hc => hc ht)] at h
    simp only [hm] at h
    simp at h
    obtain ⟨h1, h2, h3⟩ := h
    subst h1; subst h2; subst h3
    obtain ⟨c1, c2, c3, c4, c5, c6, csl, css, csh⟩ :=
      match_against_book_basic hm
    exact ⟨csl, css, csh⟩
  · intro o trs o' b' p ht hp h
    rcases hm : match_against_book b o.side o.quantity o.price_tick with
      ⟨trs₁, rem₁, b₁⟩
    rw [add_order, if_pos ht] at h
    simp only [hm] at h
    rw [hp] at hm
    rw [hm]
    obtain ⟨c1, c2, c3, c4, c5, c6, csl, css, csh⟩ :=
      match_against_book_basic hm
    refine ⟨csl, css, csh, ?_, ?_⟩
    · intro h0
      have h0' : rem₁ ≤ 0 := h0
      rw [if_neg (by omega)] at h
      simp at h
      exact h.2.2.symm
    · intro h0
      have h0' : 0 < rem₁ := h0
      rw [if_pos h0'] at h
      rcases hal : add_limit b₁ { o with quantity := rem₁ } with _ | b₂
      · rw [hal] at h
        cases h
      · rw [hal] at h
        simp at h
        rw [h.2.2]

theorem C10_matching_one_sided_witness :
    let b := getBook (add_limit Orderbook.empty (mkLimit 1 Side.ASK 2 100))
    let o := mkLimit 2 Side.BID 5 101
    let r := (add_order b o).getD ([], o, Orderbook.empty)
    sideLevels (match_against_book b o.side o.quantity (some 101)).2.2 o.side
      = sideLevels b o.side ∧
    sideSizes (match_against_book b o.side o.quantity (some 101)).2.2 o.side
      = sideSizes b o.side ∧
    sideHeap (match_against_book b o.side o.quantity (some 101)).2.2 o.side
      = sideHeap b o.side ∧
    ((match_against_book b o.side o.quantity (some 101)).2.1 ≤ 0 →
      r.2.2 = (match_against_book b o.side o.quantity (some 101)).2.2) ∧
    (0 < (match_against_book b o.side o.quantity (some 101)).2.1 →
      add_limit (match_against_book b o.side o.quantity (some 101)).2.2
        { o with quantity :=
            (match_against_book b o.side o.quantity (some 101)).2.1 } =
        some r.2.2) := by
  intro b o r
  exact (C10_matching_one_sided b 5 (some 101)).2.2.2 o r.1 r.2.1 r.2.2 101
    rfl rfl (by decide)

/-- C4.  In every book state reachable from the empty book by valid
submissions (`add_limit` on valid non-crossing input, `add_order`,
`cancel_at_price`, `cancel_by_id`), whenever both `best_bid` and
`best_ask` report a price level, the best bid tick is strictly below the
best ask tick. -/
theorem C4_no_crossed_book {b : Orderbook} (hr : Reachable b)
    {pb qb pa qa : Int}
    (hb : (best_bid b).2 = some (pb, qb))
    (ha : (best_ask b).2 = some (pa, qa)) : pb < pa := by
  obtain ⟨hB, hA, hnc⟩ := reachable_inv hr
  cases hchb : cleanHeap b.bids (-1) b.bid_heap with
  | nil => simp [best_bid, hchb] at hb
  | cons hd tl =>
    cases hcha : cleanHeap b.asks 1 b.ask_heap with
    | nil => simp [best_ask, hcha] at ha
    | cons hd' tl' =>
      simp only [best_bid, hchb] at hb
      simp only [best_ask, hcha] at ha
      simp at hb ha
      obtain ⟨hb1, -⟩ := hb
      obtain ⟨ha1, -⟩ := ha
      obtain ⟨qbid, hq1, -⟩ := cleanHeap_head hchb
      obtain ⟨qask, hq2, -⟩ := cleanHeap_head hcha
      have hmb : pb ∈ keysOf b.bids := by
        rw [mem_keysOf_iff_isSome, ← hb1]
        rw [show -1 * hd = -hd from neg_one_mul hd] at hq1
        rw [hq1]
        rfl
      have hma : pa ∈ keysOf b.asks := by
        rw [mem_keysOf_iff_isSome, ← ha1]
        rw [show (1 : Int) * hd' = hd' from one_mul hd'] at hq2
        rw [hq2]
        rfl
      exact hnc pb hmb pa hma

theorem C4_no_crossed_book_witness : (100 : Int) < 105 := by
  have h1 : Reachable (getBook (add_limit Orderbook.empty
      (mkLimit 1 Side.BID 5 100))) :=
    Reachable.limit _ _ (mkLimit 1 Side.BID 5 100) Reachable.empty
      (by decide) (by decide) (by decide)
  have h2 : Reachable (getBook (add_limit (getBook (add_limit
      Orderbook.empty (mkLimit 1 Side.BID 5 100)))
      (mkLimit 2 Side.ASK 7 105))) :=
    Reachable.limit _ _ (mkLimit 2 Side.ASK 7 105) h1
      (by decide) (by decide) (by decide)
  exact @C4_no_crossed_book _ h2 100 5 105 7 (by decide) (by decide)

/-! ### C8: the cancel-emission core -/

theorem scanQuantity_first {oid : Nat} {o : Order} :
    ∀ {pre : List Order} (post : List Order),
      (∀ x ∈ pre, x.id ≠ oid) → o.id = oid →
      scanQuantity oid (pre ++ o :: post) = o.quantity := by
  intro pre
  induction pre with
  | nil =>
    intro post _ hoid
    simp [scanQuantity, hoid]
  | cons y ys ih =>
    intro post hpre hoid
    have hy : y.id ≠ oid := hpre y (List.mem_cons_self _ _)
    simp only [List.cons_append, scanQuantity, if_neg hy]
    exact ih post (fun x hx => hpre x (List.mem_cons_of_mem _ hx)) hoid

theorem removeFirstById_found {oid : Nat} {o : Order} :
    ∀ {pre : List Order} (post : List Order),
      (∀ x ∈ pre, x.id ≠ oid) → o.id = oid →
      removeFirstById oid (pre ++ o :: post) =
        (pre ++ post, true, o.quantity) := by
  intro pre
  induction pre with
  | nil =>
    intro post _ hoid
    simp [removeFirstById, hoid]
  | cons y ys ih =>
    intro post hpre hoid
    have hy : y.id ≠ oid := hpre y (List.mem_cons_self _ _)
    have ihh := ih post (fun x hx => hpre x (List.mem_cons_of_mem _ hx)) hoid
    simp only [List.cons_append, removeFirstById, if_neg hy, List.append_eq]
    rw [ihh]

theorem cancel_by_id_found {b : Orderbook} {oid : Nat} {side : Side}
    {p : Int} {queue nq : List Order} {rq : Int}
    (hidx : dictGet b.order_index oid = some (side, p))
    (hqueue : dictGet (sideLevels b side) p = some queue)
    (hrm : removeFirstById oid queue = (nq, true, rq)) :
    (cancel_by_id b oid).1 = true := by
  cases side with
  | BID =>
    have hq' : dictGet b.bids p = some queue := hqueue
    cases queue with
    | nil =>
      simp [removeFirstById] at hrm
    | cons y ys =>
      simp [cancel_by_id, hidx, hq', hrm]
  | ASK =>
    have hq' : dictGet b.asks p = some queue := hqueue
    cases queue with
    | nil =>
      simp [removeFirstById] at hrm
    | cons y ys =>
      simp [cancel_by_id, hidx, hq', hrm]

/-- C8.  The L3 cancel-emission core shared verbatim by
`try_cancel_owned` and `purge_stale_orders`: when the cancelled order is
resting in the book — the index maps its id to `(side, price_tick)` and it
is the first order with that id in the level FIFO there — the emitted
`L3Cancel` carries as `cancelled_quantity` exactly the quantity that order
held immediately before `cancel_by_id` removed it, and carries the side
and price tick recorded in the global index. -/
theorem C8_cancel_message_quantity {b : Orderbook} {oid : Nat} {t : Nat}
    {side : Side} {p : Int} {queue pre post : List Order} {o : Order}
    (hidx : dictGet b.order_index oid = some (side, p))
    (hqueue : dictGet (sideLevels b side) p = some queue)
    (hsplit : queue = pre ++ o :: post)
    (hpre : ∀ x ∈ pre, x.id ≠ oid)
    (hoid : o.id = oid) :
    cancel_emit_core b oid t =
      (some (L3Msg.cancel (t + 1) oid side p o.quantity), t + 1,
        (cancel_by_id b oid).2) := by
  have hqd : dictGetD (sideLevels b side) p [] = queue := by
    rw [dictGetD, hqueue]
    rfl
  have hscan : scanQuantity oid queue = o.quantity := by
    rw [hsplit]
    exact scanQuantity_first post hpre hoid
  have hrm : removeFirstById oid queue = (pre ++ post, true, o.quantity) := by
    rw [hsplit]
    exact removeFirstById_found post hpre hoid
  have hcb1 : (cancel_by_id b oid).1 = true :=
    cancel_by_id_found hidx hqueue hrm
  rcases hcb : cancel_by_id b oid with ⟨removed, b'⟩
  rw [hcb] at hcb1
  simp at hcb1
  subst hcb1
  simp only [cancel_emit_core, hidx, hqd, hscan, hcb, if_pos]

theorem C8_cancel_message_quantity_witness :
    cancel_emit_core (getBook (add_limit (getBook (add_limit
        Orderbook.empty (mkLimit 1 Side.ASK 3 105)))
        (mkLimit 2 Side.ASK 4 105))) 2 7 =
      (some (L3Msg.cancel 8 2 Side.ASK 105 4), 8,
        (cancel_by_id (getBook (add_limit (getBook (add_limit
          Orderbook.empty (mkLimit 1 Side.ASK 3 105)))
          (mkLimit 2 Side.ASK 4 105))) 2).2) :=
  @C8_cancel_message_quantity _ 2 7 Side.ASK 105
    [mkLimit 1 Side.ASK 3 105, mkLimit 2 Side.ASK 4 105]
    [mkLimit 1 Side.ASK 3 105] [] (mkLimit 2 Side.ASK 4 105)
    (by decide) (by decide) (by decide) (by decide) (by decide)

/-! ### The market stream generator
(`src/simulation/market_stream.py`, `stream_fake_market`)

Embedding notes.  Python floats are modelled by `ℚ` (float arithmetic is
a deterministic function of its operands, so the substitution does not
affect the determinism claim; `round` differs from Python's
round-half-even only on exact ties).  The stdlib RNG `random.Random(seed)`
is not part of this repository; it is abstracted as a stream of raw draws
`Nat → ℚ`, a fixed function of the seed — each sampler call (`random`,
`gauss`, `lognormvariate`, `expovariate`, `uniform`, `choice`) consumes
one raw draw and applies a fixed transformation of it and its parameters
(the precise transformation is irrelevant to determinism; what matters is
that the driver consumes draws from this single stream in a fixed order).
`time.sleep(sleep_sec)` paces the loop without affecting any yielded
value, and `validate_orders` only toggles `Order.__post_init__` checks
that never fire on driver-built orders; both are omitted. -/

/-- Modelled from the spec: `CancelEvent` is imported from `core` by
`market_stream.py` and constructed as
`CancelEvent(cancel_side, price_tick, canceled.id)`, but its definition is
missing from the sources; the record is reconstructed from that
constructor call and §3 of the specification. -/
structure CancelEvent : Type where
  side : Side
  price_tick : Int
  order_id : Nat
deriving DecidableEq

/-- One yielded element of the generator: either `(order, trades)` after a
submission or `(CancelEvent, [])` after an observable cancellation. -/
inductive StreamEvent : Type
  | order (o : Order) (trades : List Trade)
  | cancelev (e : CancelEvent) (trades : List Trade)
deriving DecidableEq

/-- The regime keys of the `regimes` dict (in insertion order). -/
inductive RegimeName : Type
  | calm
  | normal
  | stress
deriving DecidableEq

/-- One regime's parameter bundle. -/
structure RegimeParams : Type where
  sigma : ℚ
  jump_prob : ℚ
  jump_sigma : ℚ
  spread_mult : ℚ
  market_ratio : ℚ
  imbalance : ℚ

/-- The `regimes` table of `stream_fake_market`. -/
def regimes : RegimeName → RegimeParams
  | RegimeName.calm => ⟨3/1000, 1/1000, 1/50, 4/5, 1/10, 1/50⟩
  | RegimeName.normal => ⟨1/100, 3/1000, 1/20, 1, 1/5, 0⟩
  | RegimeName.stress => ⟨3/100, 1/100, 3/25, 9/5, 7/20, -(1/20)⟩

/-- `regime_names = list(regimes.keys())`. -/
def regime_names : List RegimeName :=
  [RegimeName.calm, RegimeName.normal, RegimeName.stress]

/-- The configuration parameters of `stream_fake_market` that influence
the event sequence, plus the book's `tick_size` (default 0.01). -/
structure StreamCfg : Type where
  start_price : ℚ := 10
  spread : ℚ := 1/2
  market_ratio : ℚ := 1/5
  regime_switch_prob : ℚ := 1/100
  cancel_ratio : ℚ := 3/10
  orders_per_tick : Nat := 10
  replenish : Bool := true
  tick_size : ℚ := 1/100

/-- The local mutable state of the generator. -/
structure StreamState : Type where
  book : Orderbook
  next_id : Nat
  t : Nat
  mid_price : ℚ
  momentum : ℚ
  regime : RegimeName
  bid_keys_cache : List Int
  ask_keys_cache : List Int
  last_bid_levels : Int
  last_ask_levels : Int
  ctr : Nat

/-- Consume one raw draw from the seeded generator's stream. -/
def draw (d : Nat → ℚ) (st : StreamState) : ℚ × StreamState :=
  (d st.ctr, { st with ctr := st.ctr + 1 })

/-- `rng.gauss(mu, sigma)` on one raw draw. -/
def gaussModel (mu sigma u : ℚ) : ℚ := mu + sigma * u

/-- `rng.lognormvariate(mu, sigma)` on one raw draw. -/
def lognormModel (mu sigma u : ℚ) : ℚ := mu + sigma * u

/-- `rng.expovariate(lambd)` on one raw draw. -/
def expovModel (lambd u : ℚ) : ℚ := u / lambd

/-- `rng.uniform(a, b)` on one raw draw. -/
def uniformModel (a b u : ℚ) : ℚ := a + (b - a) * u

/-- `rng.choice(seq)`: the selected index, from one raw draw. -/
def choiceIdx (u : ℚ) (n : Nat) : Nat := min (n - 1) (Int.toNat ⌊u * n⌋)

/-- `book.price_to_tick(p)` with the float grid modelled on `ℚ`
(`round(p / tick_size)`); every call below guards `p ≥ 0.01 > 0`, so the
`InvalidPrice` branch is unreachable. -/
def ratPriceToTick (tick_size p : ℚ) : Int := round (p / tick_size)

/-- The observable-cancellation block of the inner loop (lines 124–145):
refresh the level-key cache when the level count changed, pick a random
cached tick, `cancel_at_price`, and yield a `CancelEvent` when an order
was actually removed.  `rng.choice` consumes a draw even when the
subsequent cancel fails. -/
def streamCancelBlock (d : Nat → ℚ) (cancel_side : Side)
    (st : StreamState) : List StreamEvent × StreamState :=
  match cancel_side with
  | Side.BID =>
    let n : Int := (st.book.bids.length : Int)
    let cache :=
      if n ≠ st.last_bid_levels then keysOf st.book.bids
      else st.bid_keys_cache
    let lastn := if n ≠ st.last_bid_levels then n else st.last_bid_levels
    let st := { st with bid_keys_cache := cache, last_bid_levels := lastn }
    if cache ≠ [] then
      let (u, st) := draw d st
      let price_tick := cache.getD (choiceIdx u cache.length) 0
      match cancel_at_price st.book Side.BID price_tick with
      | (canceled, book') =>
        let st := { st with book := book' }
        match canceled with
        | some co =>
          ([StreamEvent.cancelev ⟨Side.BID, price_tick, co.id⟩ []], st)
        | none => ([], st)
    else ([], st)
  | Side.ASK =>
    let n : Int := (st.book.asks.length : Int)
    let cache :=
      if n ≠ st.last_ask_levels then keysOf st.book.asks
      else st.ask_keys_cache
    let lastn := if n ≠ st.last_ask_levels then n else st.last_ask_levels
    let st := { st with ask_keys_cache := cache, last_ask_levels := lastn }
    if cache ≠ [] then
      let (u, st) := draw d st
      let price_tick := cache.getD (choiceIdx u cache.length) 0
      match cancel_at_price st.book Side.ASK price_tick with
      | (canceled, book') =>
        let st := { st with book := book' }
        match canceled with
        | some co =>
          ([StreamEvent.cancelev ⟨Side.ASK, price_tick, co.id⟩ []], st)
        | none => ([], st)
    else ([], st)

/-- Submit one order built by the inner loop and yield `(order, trades)`;
the yielded order is the object `add_order` mutated (its quantity holds
the residual when it rested).  The `none` branch is unreachable: every
order built by the driver is a MARKET without a tick or a LIMIT with one. -/
def streamSubmit (o : Order) (st : StreamState) :
    List StreamEvent × StreamState :=
  match add_order st.book o with
  | some (trs, o', book') =>
    ([StreamEvent.order o' trs], { st with book := book' })
  | none => ([], st)

/-- The replenishment block (lines 181–210), reached only on the LIMIT
path: read both tops (mutating lazy cleanup), and when a side's best
drifted more than `max_gap_ticks` from mid, submit a replenishing LIMIT
half a dynamic spread from mid on that side. -/
def streamReplenish (cfg : StreamCfg) (dynamic_spread : ℚ) (qty : Int)
    (st : StreamState) : List StreamEvent × StreamState :=
  match best_bid st.book with
  | (book₁, bb) =>
    match best_ask book₁ with
    | (book₂, ba) =>
      let st := { st with book := book₂ }
      let mid_tick := ratPriceToTick cfg.tick_size st.mid_price
      let max_gap_ticks : Int :=
        max 1 (round ((dynamic_spread * (5/2)) / cfg.tick_size))
      let half_ticks : Int :=
        max 1 (round (dynamic_spread / (2 * cfg.tick_size)))
      let (evs₁, st) :=
        match bb with
        | some (bt, _) =>
          if max_gap_ticks < |mid_tick - bt| then
            streamSubmit
              ⟨st.next_id + 10000000, Side.BID, OrderType.LIMIT,
                max 1 (qty / 2), some (max 1 (mid_tick - half_ticks)),
                st.t⟩ st
          else ([], st)
        | none => ([], st)
      let (evs₂, st) :=
        match ba with
        | some (at', _) =>
          if max_gap_ticks < |at' - mid_tick| then
            streamSubmit
              ⟨st.next_id + 20000000, Side.ASK, OrderType.LIMIT,
                max 1 (qty / 2), some (mid_tick + half_ticks),
                st.t⟩ st
          else ([], st)
        | none => ([], st)
      (evs₁ ++ evs₂, st)

/-- One iteration of the inner `for _ in range(max(1, orders_per_tick))`
loop (lines 110–216): side bias, market/limit decision, size draw,
optional observable cancellation, order construction (with the limit-path
offset/clustering draws and optional replenishment), submission. -/
def streamOrderStep (d : Nat → ℚ) (cfg : StreamCfg)
    (params : RegimeParams) (st : StreamState) :
    List StreamEvent × StreamState :=
  let side_bias₀ := 1/2 + params.imbalance +
    (if 0 < st.momentum then (8 : ℚ)/100 else -(8 : ℚ)/100)
  let side_bias := min (max side_bias₀ (1/20)) (19/20)
  let (u₁, st) := draw d st
  let side := if u₁ < side_bias then Side.BID else Side.ASK
  let emr := max (1/100) (min (9/10)
    (cfg.market_ratio * params.market_ratio / (1/5)))
  let (u₂, st) := draw d st
  let is_market := u₂ < emr
  let (u₃, st) := draw d st
  let qty : Int := ⌊max 1 (min 500 (lognormModel (11/5) (4/5) u₃))⌋
  let (u₄, st) := draw d st
  let (cancelEvs, st) :=
    if u₄ < cfg.cancel_ratio then
      let (u₅, st) := draw d st
      streamCancelBlock d (if u₅ < 1/2 then Side.BID else Side.ASK) st
    else ([], st)
  if is_market then
    let o : Order := ⟨st.next_id, side, OrderType.MARKET, qty, none, st.t⟩
    let st := { st with next_id := st.next_id + 1, t := st.t + 1 }
    match streamSubmit o st with
    | (evs, st) => (cancelEvs ++ evs, st)
  else
    let dynamic_spread := cfg.spread * params.spread_mult
    let (u₆, st) := draw d st
    let base_offset :=
      expovModel (1 / max (1/100) (dynamic_spread * (35/100))) u₆
    let offset₀ := dynamic_spread / 2 + base_offset
    let (u₇, st) := draw d st
    let (offset, st) :=
      if u₇ < 3/5 then
        let (u₈, st) := draw d st
        (offset₀ * uniformModel (1/5) (3/5) u₈, st)
      else (offset₀, st)
    let price₀ :=
      if side = Side.BID then st.mid_price - offset else st.mid_price + offset
    let (u₉, st) := draw d st
    let price :=
      if u₉ < 1/2 then ((round (price₀ * 20) : ℤ) : ℚ) / 20 else price₀
    let price_tick := ratPriceToTick cfg.tick_size (max (1/100) price)
    let o : Order := ⟨st.next_id, side, OrderType.LIMIT, qty,
      some price_tick, st.t⟩
    let (replEvs, st) :=
      if cfg.replenish then streamReplenish cfg dynamic_spread qty st
      else ([], st)
    let st := { st with next_id := st.next_id + 1, t := st.t + 1 }
    match streamSubmit o st with
    | (evs, st) => (cancelEvs ++ replEvs ++ evs, st)

/-- Run `k` iterations of the inner loop. -/
def streamOrders (d : Nat → ℚ) (cfg : StreamCfg) (params : RegimeParams) :
    Nat → StreamState → List StreamEvent × StreamState
  | 0, st => ([], st)
  | k + 1, st =>
    match streamOrderStep d cfg params st with
    | (evs, st) =>
      match streamOrders d cfg params k st with
      | (evs', st') => (evs ++ evs', st')

/-- One iteration of the outer `while True` loop (lines 88–219): possible
regime switch, stochastic mid-price update with occasional jumps, then
`max(1, orders_per_tick)` inner iterations. -/
def streamTick (d : Nat → ℚ) (cfg : StreamCfg) (st : StreamState) :
    List StreamEvent × StreamState :=
  let (u₀, st) := draw d st
  let (regime, st) :=
    if u₀ < cfg.regime_switch_prob then
      let (u₁, st) := draw d st
      (regime_names.getD (choiceIdx u₁ regime_names.length)
        RegimeName.normal, st)
    else (st.regime, st)
  let st := { st with regime := regime }
  let params := regimes st.regime
  let (us, st) := draw d st
  let shock := gaussModel 0 params.sigma us
  let momentum := (95/100) * st.momentum + shock
  let (uj, st) := draw d st
  let (jump, st) :=
    if uj < params.jump_prob then
      let (uj₂, st) := draw d st
      (gaussModel 0 params.jump_sigma uj₂, st)
    else ((0 : ℚ), st)
  let mid₁ := st.mid_price * max (1/100) (1 + shock + jump)
  let mid := max (1/100) mid₁
  let st := { st with momentum := momentum, mid_price := mid }
  streamOrders d cfg params (max 1 cfg.orders_per_tick) st

/-- The events yielded during the first `n` outer iterations. -/
def streamRun (d : Nat → ℚ) (cfg : StreamCfg) :
    Nat → StreamState → List StreamEvent
  | 0, _ => []
  | n + 1, st =>
    match streamTick d cfg st with
    | (evs, st') => evs ++ streamRun d cfg n st'

/-- The generator's initial local state (lines 44–86). -/
def initState (book : Orderbook) (cfg : StreamCfg) : StreamState :=
  { book := book, next_id := 1, t := 0, mid_price := cfg.start_price,
    momentum := 0, regime := RegimeName.normal, bid_keys_cache := [],
    ask_keys_cache := [], last_bid_levels := -1, last_ask_levels := -1,
    ctr := 0 }

/-- Modelled from the spec: `random.Random(seed)` is stdlib code outside
this repository; its raw output stream is modelled as a fixed computable
function of the seed and the draw index.  All that the determinism claim
uses is that the stream is a function of the seed. -/
def mkDraws (seed : Nat) : Nat → ℚ :=
  fun i =>
    ((((seed + 1) * 1103515245 + i * 12345) % 2147483648 : Nat) : ℚ) /
      (2147483648 : ℚ)

/-- `stream_fake_market`, materialised as the list of events yielded
during the first `n` outer iterations when started on `book`. -/
def stream_fake_market (seed : Nat) (cfg : StreamCfg) (book : Orderbook)
    (n : Nat) : List StreamEvent :=
  streamRun (mkDraws seed) cfg n (initState book cfg)

/-- C9.  Replay determinism of the market stream generator: two runs of
`stream_fake_market` started on equal books with the same seed and the
same configuration yield exactly the same event sequence — in the
embedding every source of randomness is the single draw stream determined
by the seed, and the generator is a pure function of seed, configuration
and initial book. -/
theorem C9_stream_deterministic (s₁ s₂ : Nat) (cfg : StreamCfg)
    (b₁ b₂ : Orderbook) (hs : s₁ = s₂) (hb : b₁ = b₂) (n : Nat) :
    stream_fake_market s₁ cfg b₁ n = stream_fake_market s₂ cfg b₂ n := by
  rw [hs, hb]

theorem C9_stream_deterministic_witness :
    stream_fake_market 42 {} Orderbook.empty 3 =
      stream_fake_market 42 {} Orderbook.empty 3 :=
  C9_stream_deterministic 42 42 {} Orderbook.empty Orderbook.empty rfl rfl 3

end FM
